import Mathlib

/-!
The LC3 assembler symbol table (`symbol.c`).

A shallow embedding of the hash table of `symbol.c` and the properties of its
interface.

Conventions of the embedding.

* A `const char*` argument is the list of the bytes it points to; the loops of
  the source stop at the first zero byte, and the end of the list is read as
  the terminating zero byte.
* A chain of `node_t` linked through `next` is a `List node_t`, head first.
* `hash_table` is the list of the chains, one entry per allocated bucket;
  `addr_table` is a map from the index to the slot, and an access is in bounds
  for an index in `[0, LC3_MEMORY_SIZE)`.
* A function whose C behaviour can be undefined (a division by zero, an array
  access out of bounds, a null dereference) returns an `Option`, and `none`
  is that undefined behaviour. A returned pointer that may be `NULL` is an
  `Option` as well, so `some none` reads "returns `NULL`".
* A table handle is the table it points to (the `NULL` handle has no
  counterpart), `calloc` and `strdup` succeed, and the counter `size` is an
  unbounded integer: a table of `2^31` live nodes is outside the model.
-/

namespace SymbolTable

/-- The size of the LC3 memory, `(1 << 16)` addresses. -/
def LC3_MEMORY_SIZE : Int := ((1 <<< 16 : Nat) : Int)

/-- The width of `unsigned long` in bits (LP64). -/
def ULONG_BITS : Nat := 64

/-- The libc function `tolower` in the "C" locale, on the value of a byte. -/
def tolower (c : Nat) : Nat :=
  if 65 ≤ c ∧ c ≤ 90 then c + 32 else c

/-- The libc function `strcasecmp`: the difference of the first pair of bytes
that differ after `tolower`, and `0` when the terminating zero byte is reached
on both sides. -/
def strcasecmp : List Nat → List Nat → Int
  | [], [] => 0
  | [], c2 :: _ => (tolower 0 : Int) - (tolower c2 : Int)
  | c1 :: _, [] => (tolower c1 : Int) - (tolower 0 : Int)
  | c1 :: s1, c2 :: s2 =>
    if (tolower c1 : Int) - (tolower c2 : Int) ≠ 0 then
      (tolower c1 : Int) - (tolower c2 : Int)
    else if c1 = 0 then 0
    else strcasecmp s1 s2

/-- The libc function `strdup`: a copy of the bytes before the first zero
byte. -/
def strdup : List Nat → List Nat
  | [] => []
  | c :: s => if c = 0 then [] else c :: strdup s

/-- Modelled from the spec: the type `symbol_t` is declared in `symbol.h`; the
source reads and writes its fields `name` (a `char*`) and `addr` (an `int`),
the Symbol `{ name: text, addr: integer }` of the spec. -/
structure symbol_t where
  name : List Nat
  addr : Int
  deriving DecidableEq, Repr

/-- The type `node_t` without its `next` field: a chain is a list of nodes. -/
structure node_t where
  hash : Int
  symbol : symbol_t
  deriving DecidableEq, Repr

/-- The type `struct sym_table`. -/
structure sym_table where
  capacity : Int
  size : Int
  hash_table : List (List node_t)
  addr_table : Option (Int → Option (List Nat))

/-- The loop of `symbol_hash`: `hash = ((hash << 5) + hash) + tolower(c)` for
each byte up to the terminating zero byte, in the arithmetic of an
`unsigned long` of `bits` bits. -/
def symbol_hash_loop (bits : Nat) (hash : Nat) : List Nat → Nat
  | [] => hash
  | c :: str =>
    if c = 0 then hash
    else
      symbol_hash_loop bits
        ((((hash <<< 5) % 2 ^ bits + hash) % 2 ^ bits + tolower c) % 2 ^ bits) str

/-- The function `symbol_hash`: the djb hash of the name, 31 bits kept. -/
def symbol_hash (name : List Nat) : Int :=
  ((symbol_hash_loop ULONG_BITS 5381 name &&& 0x7FFFFFFF : Nat) : Int)

/-- The function `symbol_init`: `capacity` empty buckets, an address table of
empty slots, `size = 0`. -/
def symbol_init (capacity : Int) : sym_table :=
  { capacity := capacity
    size := 0
    hash_table := List.replicate capacity.toNat []
    addr_table := some (fun _ => none) }

/-- The read of `hash_table[index]`, undefined out of the allocated buckets. -/
def hash_table_at (hash_table : List (List node_t)) (index : Int) :
    Option (List node_t) :=
  if 0 ≤ index then hash_table[index.toNat]? else none

/-- The `while` loop of `symbol_search` over one chain: the first node whose
stored hash is `hash` and whose name compares equal to `name`. -/
def symbol_search_chain (name : List Nat) (hash : Int) :
    List node_t → Option node_t
  | [] => none
  | tmp :: next =>
    if hash = tmp.hash then
      if strcasecmp name tmp.symbol.name = 0 then some tmp
      else symbol_search_chain name hash next
    else symbol_search_chain name hash next

/-- The function `symbol_search`: the node found (or `NULL`) with the values
written to `*hash` and `*index`. -/
def symbol_search (symTab : sym_table) (name : List Nat) :
    Option (Option node_t × Int × Int) :=
  let hash := symbol_hash name
  if symTab.capacity = 0 then none
  else
    let index := Int.tmod hash symTab.capacity
    match hash_table_at symTab.hash_table index with
    | none => none
    | some tmp => some (symbol_search_chain name hash tmp, hash, index)

/-- The function `symbol_add`: the value returned and the table after the
call. -/
def symbol_add (symTab : sym_table) (name : List Nat) (addr : Int) :
    Option (Int × sym_table) :=
  match symbol_search symTab name with
  | none => none
  | some (some _, _, _) => some (0, symTab)
  | some (none, hash, index) =>
    match hash_table_at symTab.hash_table index with
    | none => none
    | some next =>
      let tmp : node_t :=
        { hash := hash, symbol := { name := strdup name, addr := addr } }
      let hash_table := symTab.hash_table.set index.toNat (tmp :: next)
      match symTab.addr_table with
      | none =>
        some (1, { symTab with hash_table := hash_table, size := symTab.size + 1 })
      | some addr_table =>
        if 0 ≤ addr ∧ addr < LC3_MEMORY_SIZE then
          some (1, { symTab with
            hash_table := hash_table
            addr_table :=
              some (fun a => if a = addr then some tmp.symbol.name else addr_table a)
            size := symTab.size + 1 })
        else none

/-- The function `symbol_find_by_name`. -/
def symbol_find_by_name (symTab : sym_table) (name : List Nat) :
    Option (Option symbol_t) :=
  match symbol_search symTab name with
  | none => none
  | some (none, _, _) => some none
  | some (some foundNode, _, _) => some (some foundNode.symbol)

/-- The function `symbol_find_by_addr`. -/
def symbol_find_by_addr (symTab : sym_table) (addr : Int) :
    Option (Option (List Nat)) :=
  match symTab.addr_table with
  | none => some none
  | some addr_table =>
    if 0 ≤ addr ∧ addr < LC3_MEMORY_SIZE then some (addr_table addr) else none

/-- The function `symbol_size`. -/
def symbol_size (symTab : sym_table) : Int :=
  symTab.size

/-- The `for` loop of `symbol_reset` from bucket `i` on, `n` buckets to go:
every node of the chain is freed and the bucket is set to `NULL`. -/
def symbol_reset_loop : Nat → Nat → List (List node_t) → Option (List (List node_t))
  | _, 0, hash_table => some hash_table
  | i, n + 1, hash_table =>
    match hash_table[i]? with
    | none => none
    | some _ => symbol_reset_loop (i + 1) n (hash_table.set i [])

/-- The function `symbol_reset`: the table after the call. The fields
`size` and `addr_table` are not written. -/
def symbol_reset (symTab : sym_table) : Option sym_table :=
  match symbol_reset_loop 0 symTab.capacity.toNat symTab.hash_table with
  | none => none
  | some hash_table => some { symTab with hash_table := hash_table }

/-- A run of `symbol_add` calls, one per `(name, addr)` of the list: the values
returned, in order, and the table after the last call. -/
def symbol_adds (symTab : sym_table) :
    List (List Nat × Int) → Option (List Int × sym_table)
  | [] => some ([], symTab)
  | (name, addr) :: calls =>
    match symbol_add symTab name addr with
    | none => none
    | some (r, symTab1) =>
      match symbol_adds symTab1 calls with
      | none => none
      | some (rs, symTab2) => some (r :: rs, symTab2)

/-- The bytes of a C string after `tolower`, up to the terminating zero byte:
what `strcasecmp` and `symbol_hash` read of a name. -/
def casefold (s : List Nat) : List Nat :=
  (strdup s).map tolower

/-- The index computed by `symbol_search`: `*hash % symTab->capacity`. -/
def bucket_index (symTab : sym_table) (name : List Nat) : Int :=
  Int.tmod (symbol_hash name) symTab.capacity

/-- A node is live in the table: it is on the chain of one of the buckets. -/
def live (symTab : sym_table) (nd : node_t) : Prop :=
  ∃ (i : Nat) (chain : List node_t), symTab.hash_table[i]? = some chain ∧ nd ∈ chain

/-- The representation invariant of a table: a positive capacity, one chain
per bucket, every node on the chain of the bucket of its name with the hash of
its name stored, no two names of a chain equal under `strcasecmp`, and an
address table. -/
structure table_inv (symTab : sym_table) : Prop where
  cap_pos : 0 < symTab.capacity
  len : symTab.hash_table.length = symTab.capacity.toNat
  node_hash : ∀ (i : Nat) (chain : List node_t), symTab.hash_table[i]? = some chain →
    ∀ nd ∈ chain, nd.hash = symbol_hash nd.symbol.name ∧
      Int.tmod nd.hash symTab.capacity = (i : Int)
  uniq : ∀ (i : Nat) (chain : List node_t), symTab.hash_table[i]? = some chain →
    chain.Pairwise (fun a b => strcasecmp a.symbol.name b.symbol.name ≠ 0)
  addr : symTab.addr_table ≠ none

/-- The slot `addr_table[a]` of a table (empty when there is no address
table). -/
def addr_slot (symTab : sym_table) (a : Int) : Option (List Nat) :=
  match symTab.addr_table with
  | none => none
  | some addr_table => addr_table a

/-- The node that `symbol_add` allocates for `name` and `addr`. -/
def new_node (name : List Nat) (addr : Int) : node_t :=
  { hash := symbol_hash name, symbol := { name := strdup name, addr := addr } }

/-- What a run of `symbol_add` calls `calls`, with the values `rs` returned,
does to a table `t` that it leaves as `t'`. -/
structure adds_facts (t : sym_table) (calls : List (List Nat × Int)) (rs : List Int)
    (t' : sym_table) : Prop where
  inv : table_inv t'
  cap : t'.capacity = t.capacity
  len : rs.length = calls.length
  ret : ∀ r ∈ rs, r = 0 ∨ r = 1
  size : t'.size = t.size + (rs.count 1 : Nat)
  mono : ∀ nd, live t nd → live t' nd
  added : ∀ p ∈ calls.zip rs, p.2 = 1 → live t' (new_node p.1.1 p.1.2)
  origin : ∀ nd, live t' nd →
    live t nd ∨ ∃ p ∈ calls.zip rs, p.2 = 1 ∧ nd = new_node p.1.1 p.1.2
  slot_same : ∀ a, (∀ p ∈ calls.zip rs, p.2 = 1 → p.1.2 ≠ a) →
    addr_slot t' a = addr_slot t a

/-- The function `compare_names`, on two elements of the array of
`symbol_t*`: a `NULL` element is dereferenced. -/
def compare_names (vp1 vp2 : Option symbol_t) : Option Int :=
  match vp1, vp2 with
  | some sym1, some sym2 => some (strcasecmp sym1.name sym2.name)
  | _, _ => none

/-- The subtraction of two `int`, undefined when the difference is not an
`int`. -/
def int_sub (a b : Int) : Option Int :=
  if -(2 ^ 31) ≤ a - b ∧ a - b < 2 ^ 31 then some (a - b) else none

/-- The function `compare_addresses`, on two elements of the array of
`symbol_t*`. -/
def compare_addresses (vp1 vp2 : Option symbol_t) : Option Int :=
  match vp1, vp2 with
  | some sym1, some sym2 =>
    match int_sub sym1.addr sym2.addr with
    | none => none
    | some d => if d = 0 then compare_names vp1 vp2 else some d
  | _, _ => none

/-- The libc function `qsort` on the elements of an array: no comparison for
fewer than two elements, undefined when the comparison function is undefined on
two elements, and the elements in the order of the comparison function
otherwise. -/
def qsort {α : Type} (base : List α) (compar : α → α → Option Int) : Option (List α) :=
  if base.length ≤ 1 then some base
  else if base.all (fun a => base.all (fun b => (compar a b).isSome)) then
    some (base.insertionSort (fun a b => (compar a b).getD 0 ≤ 0))
  else none

/-- Modelled from the spec: the sort criteria `HASH`, `NAME` and `ADDR` that
`symbol_order` tests are declared in `symbol.h`; they are the three criteria
`BucketOrder`, `ByName` and `ByAddress` of the spec. -/
inductive order_t where
  | HASH
  | NAME
  | ADDR
  deriving DecidableEq, Repr

/-- The `for` loop of `symbol_order` from bucket `i` on, `n` buckets to go: the
symbols of the chains, each chain from its head. -/
def symbol_order_loop : Nat → Nat → List (List node_t) → Option (List symbol_t)
  | _, 0, _ => some []
  | i, n + 1, hash_table =>
    match hash_table[i]? with
    | none => none
    | some chain =>
      match symbol_order_loop (i + 1) n hash_table with
      | none => none
      | some syms => some (chain.map (fun tmp => tmp.symbol) ++ syms)

/-- The array `srtSymb` of `symbol_order` after the calls of `qsort`: `size`
elements, `NULL` where the loop has written no symbol. The array is taken to
hold `size` pointers, and a write past them is undefined. -/
def symbol_order_srtSymb (symTab : sym_table) (order : order_t) :
    Option (List (Option symbol_t)) :=
  match symbol_order_loop 0 symTab.capacity.toNat symTab.hash_table with
  | none => none
  | some syms =>
    if symTab.size < syms.length then none
    else
      let srtSymb := syms.map some ++ List.replicate (symTab.size.toNat - syms.length) none
      match order with
      | order_t.HASH => qsort srtSymb compare_addresses
      | order_t.NAME => qsort srtSymb compare_names
      | order_t.ADDR => qsort srtSymb compare_addresses

/-- The function `symbol_order`: the sorted array is built and `NULL` is
returned. -/
def symbol_order (symTab : sym_table) (order : order_t) :
    Option (Option (List (Option symbol_t))) :=
  match symbol_order_srtSymb symTab order with
  | none => none
  | some _ => some none

/-- The table that a run of `symbol_add` calls leaves (the table as it was
when the run is undefined). -/
def symbol_adds_table (symTab : sym_table) (calls : List (List Nat × Int)) : sym_table :=
  match symbol_adds symTab calls with
  | none => symTab
  | some (_, symTab1) => symTab1

/-- One call of a run on a table: `symbol_add(name, addr)` or
`symbol_reset`. -/
inductive call_t where
  | add (name : List Nat) (addr : Int)
  | reset
  deriving DecidableEq, Repr

/-- A run of `symbol_add` and `symbol_reset` calls: the table after the last
call. -/
def symbol_calls (symTab : sym_table) : List call_t → Option sym_table
  | [] => some symTab
  | call_t.add name addr :: calls =>
    match symbol_add symTab name addr with
    | none => none
    | some (_, symTab1) => symbol_calls symTab1 calls
  | call_t.reset :: calls =>
    match symbol_reset symTab with
    | none => none
    | some symTab1 => symbol_calls symTab1 calls

/-- The table that a run of `symbol_add` and `symbol_reset` calls leaves (the
table as it was when the run is undefined). -/
def symbol_calls_table (symTab : sym_table) (calls : List call_t) : sym_table :=
  match symbol_calls symTab calls with
  | none => symTab
  | some symTab1 => symTab1

/-- The hash as the spec words it, over the unbounded integers: start at 5381
and set `h := h * 33 + tolower(c)` for each byte `c` of the name in order. -/
def djb_hash (name : List Nat) : Nat :=
  name.foldl (fun h c => h * 33 + tolower c) 5381

/-- The `for` loop of `symbol_iterate` from bucket `i` on, `n` buckets to go.
The callback is the parameter `fnc`: its type `iterate_fnc_t` is declared in
`symbol.h`, it gets a symbol and the pointer `data`, returns nothing and, as
the spec asks, leaves the table alone, so it is a function from the symbol and
what `data` points to before the call to what it points to after. -/
def symbol_iterate_loop {δ : Type} (fnc : symbol_t → δ → δ) :
    Nat → Nat → List (List node_t) → δ → Option δ
  | _, 0, _, data => some data
  | i, n + 1, hash_table, data =>
    match hash_table[i]? with
    | none => none
    | some chain =>
      symbol_iterate_loop fnc (i + 1) n hash_table
        (chain.foldl (fun d tmp => fnc tmp.symbol d) data)

/-- The function `symbol_iterate`: what `data` points to after the calls of
the callback. -/
def symbol_iterate {δ : Type} (symTab : sym_table) (fnc : symbol_t → δ → δ) (data : δ) :
    Option δ :=
  symbol_iterate_loop fnc 0 symTab.capacity.toNat symTab.hash_table data

/-- The insertion history of a run: the `(name, addr)` of the calls that
returned 1, in the order of the calls. -/
def added (calls : List (List Nat × Int)) (rs : List Int) : List (List Nat × Int) :=
  ((calls.zip rs).filter (fun p => decide (p.2 = 1))).map (fun p => p.1)

/-- The order of iteration as the spec words it, from the insertion history:
the buckets by ascending index, a symbol in the bucket
`symbol_hash(name) mod capacity`, and within one bucket the most recently
inserted symbol first. -/
def iterate_order (capacity : Int) (inserted : List (List Nat × Int)) : List symbol_t :=
  (List.range capacity.toNat).flatMap (fun i =>
    (inserted.reverse.filter (fun p => decide (symbol_hash p.1 % capacity = (i : Int)))).map
      (fun p => { name := strdup p.1, addr := p.2 }))

/-! The names: `tolower`, `strcasecmp`, `strdup` and `symbol_hash`. -/

theorem tolower_eq_zero {c : Nat} : tolower c = 0 ↔ c = 0 := by
  unfold tolower; split <;> omega

theorem tolower_tolower (c : Nat) : tolower (tolower c) = tolower c := by
  unfold tolower; split_ifs <;> omega

theorem tolower_sub_eq_zero {c1 c2 : Nat} :
    (tolower c1 : Int) - (tolower c2 : Int) = 0 ↔ tolower c1 = tolower c2 := by
  omega

theorem strcasecmp_eq_zero_iff (a b : List Nat) :
    strcasecmp a b = 0 ↔ casefold a = casefold b := by
  induction a generalizing b with
  | nil =>
    cases b with
    | nil => simp [strcasecmp, casefold]
    | cons c2 s2 =>
      by_cases h : c2 = 0
      · subst h; simp [strcasecmp, casefold, strdup, tolower]
      · have h2 : tolower c2 ≠ 0 := fun e => h (tolower_eq_zero.mp e)
        simp [strcasecmp, casefold, strdup, h]
        simp [tolower] at h2 ⊢
        omega
  | cons c1 s1 ih =>
    cases b with
    | nil =>
      by_cases h : c1 = 0
      · subst h; simp [strcasecmp, casefold, strdup, tolower]
      · have h2 : tolower c1 ≠ 0 := fun e => h (tolower_eq_zero.mp e)
        simp [strcasecmp, casefold, strdup, h]
        simp [tolower] at h2 ⊢
        omega
    | cons c2 s2 =>
      have ih2 := ih s2
      unfold casefold at ih2 ⊢
      by_cases hd : tolower c1 = tolower c2
      · by_cases h1 : c1 = 0
        · have h2 : c2 = 0 := by
            subst h1
            exact tolower_eq_zero.mp (by rw [← hd]; simp [tolower])
          subst h1; subst h2
          simp [strcasecmp, strdup]
        · have h2 : c2 ≠ 0 := by
            intro e; subst e
            exact h1 (tolower_eq_zero.mp (by rw [hd]; simp [tolower]))
          simp [strcasecmp, strdup, h1, h2, hd, ih2]
      · have hne : (tolower c1 : Int) - (tolower c2 : Int) ≠ 0 := by omega
        have e : strcasecmp (c1 :: s1) (c2 :: s2)
            = (tolower c1 : Int) - (tolower c2 : Int) := by
          rw [strcasecmp, if_pos hne]
        rw [e]
        constructor
        · intro h0; exact absurd h0 hne
        · intro hc
          exfalso
          by_cases h1 : c1 = 0 <;> by_cases h2 : c2 = 0
          · subst h1; subst h2; exact hd rfl
          · simp [strdup, h1, h2] at hc
          · simp [strdup, h1, h2] at hc
          · simp [strdup, h1, h2] at hc
            exact hd hc.1

theorem strdup_eq_self {s : List Nat} (h : ∀ c ∈ s, c ≠ 0) : strdup s = s := by
  induction s with
  | nil => rfl
  | cons c s ih =>
    have hc : c ≠ 0 := h c (List.mem_cons_self _ _)
    simp [strdup, hc, ih (fun d hd => h d (List.mem_cons_of_mem _ hd))]

theorem casefold_strdup (s : List Nat) : casefold (strdup s) = casefold s := by
  have h : strdup (strdup s) = strdup s := by
    induction s with
    | nil => rfl
    | cons c s ih =>
      by_cases h : c = 0
      · simp [strdup, h]
      · simp [strdup, h, ih]
  simp [casefold, h]

/-- The hash loop is a left fold of the step over the case-folded bytes. -/
theorem symbol_hash_loop_eq_foldl (bits hash : Nat) (s : List Nat) :
    symbol_hash_loop bits hash s =
      (casefold s).foldl
        (fun h c => (((h <<< 5) % 2 ^ bits + h) % 2 ^ bits + c) % 2 ^ bits) hash := by
  induction s generalizing hash with
  | nil => rfl
  | cons c s ih =>
    by_cases h : c = 0
    · simp [symbol_hash_loop, casefold, strdup, h]
    · simp only [symbol_hash_loop, casefold, strdup, h, if_false, List.map_cons, List.foldl_cons]
      rw [ih]; rfl

theorem symbol_hash_congr {a b : List Nat} (h : casefold a = casefold b) :
    symbol_hash a = symbol_hash b := by
  unfold symbol_hash
  rw [symbol_hash_loop_eq_foldl, symbol_hash_loop_eq_foldl, h]

theorem symbol_hash_nonneg (name : List Nat) : 0 ≤ symbol_hash name := by
  unfold symbol_hash; exact Int.ofNat_nonneg _


/-- Two names with the same bytes after `tolower`, two spellings of one name
that differ in the case of letters only, compare equal under `strcasecmp`. -/
theorem strcasecmp_of_map_tolower {a b : List Nat}
    (h : a.map tolower = b.map tolower) : strcasecmp a b = 0 := by
  rw [strcasecmp_eq_zero_iff]
  unfold casefold
  induction a generalizing b with
  | nil =>
    cases b with
    | nil => rfl
    | cons c2 s2 => simp at h
  | cons c1 s1 ih =>
    cases b with
    | nil => simp at h
    | cons c2 s2 =>
      simp only [List.map_cons, List.cons.injEq] at h
      obtain ⟨hc, hs⟩ := h
      by_cases h1 : c1 = 0
      · have h2 : c2 = 0 := by
          subst h1
          exact tolower_eq_zero.mp (by rw [← hc]; simp [tolower])
        simp [strdup, h1, h2]
      · have h2 : c2 ≠ 0 := by
          intro e; subst e
          exact h1 (tolower_eq_zero.mp (by rw [hc]; simp [tolower]))
        simp [strdup, h1, h2, hc, ih hs]

theorem strcasecmp_symm {a b : List Nat} (h : strcasecmp a b = 0) : strcasecmp b a = 0 :=
  (strcasecmp_eq_zero_iff b a).mpr ((strcasecmp_eq_zero_iff a b).mp h).symm

theorem strcasecmp_trans {a b c : List Nat} (h1 : strcasecmp a b = 0)
    (h2 : strcasecmp b c = 0) : strcasecmp a c = 0 :=
  (strcasecmp_eq_zero_iff a c).mpr
    (((strcasecmp_eq_zero_iff a b).mp h1).trans ((strcasecmp_eq_zero_iff b c).mp h2))

theorem strcasecmp_strdup_right (a b : List Nat) :
    strcasecmp a (strdup b) = 0 ↔ strcasecmp a b = 0 := by
  rw [strcasecmp_eq_zero_iff, strcasecmp_eq_zero_iff, casefold_strdup]

theorem symbol_hash_of_strcasecmp {a b : List Nat} (h : strcasecmp a b = 0) :
    symbol_hash a = symbol_hash b :=
  symbol_hash_congr ((strcasecmp_eq_zero_iff a b).mp h)

theorem symbol_hash_strdup (a : List Nat) : symbol_hash (strdup a) = symbol_hash a :=
  symbol_hash_congr (casefold_strdup a)

theorem symbol_search_chain_some {name : List Nat} {hash : Int} {chain : List node_t}
    {nd : node_t} (h : symbol_search_chain name hash chain = some nd) :
    nd ∈ chain ∧ hash = nd.hash ∧ strcasecmp name nd.symbol.name = 0 := by
  induction chain with
  | nil => simp [symbol_search_chain] at h
  | cons tmp next ih =>
    unfold symbol_search_chain at h
    split_ifs at h with h1 h2
    · cases h; exact ⟨List.mem_cons_self _ _, h1, h2⟩
    · obtain ⟨m, e⟩ := ih h; exact ⟨List.mem_cons_of_mem _ m, e⟩
    · obtain ⟨m, e⟩ := ih h; exact ⟨List.mem_cons_of_mem _ m, e⟩

theorem symbol_search_chain_none {name : List Nat} {hash : Int} {chain : List node_t}
    (h : symbol_search_chain name hash chain = none) :
    ∀ nd ∈ chain, hash = nd.hash → strcasecmp name nd.symbol.name ≠ 0 := by
  induction chain with
  | nil => simp
  | cons tmp next ih =>
    unfold symbol_search_chain at h
    intro nd hm
    rcases List.mem_cons.mp hm with rfl | hm
    · intro e1 e2; simp [e1, e2] at h
    · split_ifs at h with h1 h2 <;> exact ih h nd hm

theorem symbol_search_chain_none_of {name : List Nat} {hash : Int} {chain : List node_t}
    (h : ∀ nd ∈ chain, hash = nd.hash → strcasecmp name nd.symbol.name ≠ 0) :
    symbol_search_chain name hash chain = none := by
  cases e : symbol_search_chain name hash chain with
  | none => rfl
  | some nd =>
    obtain ⟨m, e1, e2⟩ := symbol_search_chain_some e
    exact absurd e2 (h nd m e1)

theorem bucket_index_bounds {t : sym_table} (hcap : 0 < t.capacity) (name : List Nat) :
    0 ≤ bucket_index t name ∧ bucket_index t name < t.capacity := by
  unfold bucket_index
  exact ⟨Int.tmod_nonneg _ (symbol_hash_nonneg name), Int.tmod_lt_of_pos _ hcap⟩

theorem bucket_exists {t : sym_table} (inv : table_inv t) (name : List Nat) :
    ∃ chain, t.hash_table[(bucket_index t name).toNat]? = some chain := by
  obtain ⟨h0, h1⟩ := bucket_index_bounds inv.cap_pos name
  have hlt : (bucket_index t name).toNat < t.hash_table.length := by
    rw [inv.len]; omega
  exact ⟨t.hash_table[(bucket_index t name).toNat], List.getElem?_eq_getElem hlt⟩

theorem symbol_search_eq {t : sym_table} (inv : table_inv t) (name : List Nat)
    {chain : List node_t} (hc : t.hash_table[(bucket_index t name).toNat]? = some chain) :
    symbol_search t name =
      some (symbol_search_chain name (symbol_hash name) chain, symbol_hash name,
        bucket_index t name) := by
  obtain ⟨h0, _⟩ := bucket_index_bounds inv.cap_pos name
  have hne : t.capacity ≠ 0 := ne_of_gt inv.cap_pos
  unfold symbol_search hash_table_at
  unfold bucket_index at hc h0
  simp [hne, h0, hc, bucket_index]


theorem live_bucket {t : sym_table} (inv : table_inv t) {nd : node_t} (h : live t nd) :
    ∃ chain, t.hash_table[(bucket_index t nd.symbol.name).toNat]? = some chain ∧
      nd ∈ chain ∧ nd.hash = symbol_hash nd.symbol.name := by
  obtain ⟨i, chain, hc, hm⟩ := h
  obtain ⟨e1, e2⟩ := inv.node_hash i chain hc nd hm
  refine ⟨chain, ?_, hm, e1⟩
  have : bucket_index t nd.symbol.name = (i : Int) := by
    unfold bucket_index; rw [← e1]; exact e2
  rw [this]; simpa using hc

theorem bucket_index_of_strcasecmp (t : sym_table) {a b : List Nat}
    (h : strcasecmp a b = 0) : bucket_index t a = bucket_index t b := by
  unfold bucket_index; rw [symbol_hash_of_strcasecmp h]

/-- A search for a name that a live node holds, in any case, finds that node. -/
theorem symbol_search_live {t : sym_table} (inv : table_inv t) {nd : node_t}
    (h : live t nd) {q : List Nat} (hq : strcasecmp q nd.symbol.name = 0) :
    symbol_search t q = some (some nd, symbol_hash q, bucket_index t q) := by
  obtain ⟨chain, hc, hm, eh⟩ := live_bucket inv h
  rw [← bucket_index_of_strcasecmp t hq] at hc
  rw [symbol_search_eq inv q hc]
  have ehq : symbol_hash q = nd.hash := by rw [eh]; exact symbol_hash_of_strcasecmp hq
  cases e : symbol_search_chain q (symbol_hash q) chain with
  | none => exact absurd hq (symbol_search_chain_none e nd hm ehq)
  | some nd' =>
    obtain ⟨m', _, e2⟩ := symbol_search_chain_some e
    by_cases hne : nd' = nd
    · rw [hne]
    · exfalso
      have hsymm : Symmetric (fun a b : node_t =>
          strcasecmp a.symbol.name b.symbol.name ≠ 0) :=
        fun a b hab hba => hab (strcasecmp_symm hba)
      have hp := (inv.uniq _ chain hc).forall hsymm m' hm hne
      exact hp (strcasecmp_trans (strcasecmp_symm e2) hq)

/-- A search for a name that no live node holds, in any case, finds nothing. -/
theorem symbol_search_fresh {t : sym_table} (inv : table_inv t) {q : List Nat}
    (hq : ∀ nd, live t nd → strcasecmp q nd.symbol.name ≠ 0) :
    symbol_search t q = some (none, symbol_hash q, bucket_index t q) := by
  obtain ⟨chain, hc⟩ := bucket_exists inv q
  rw [symbol_search_eq inv q hc, symbol_search_chain_none_of]
  intro nd hm _
  exact hq nd ⟨_, chain, hc, hm⟩

theorem symbol_find_by_name_live {t : sym_table} (inv : table_inv t) {nd : node_t}
    (h : live t nd) {q : List Nat} (hq : strcasecmp q nd.symbol.name = 0) :
    symbol_find_by_name t q = some (some nd.symbol) := by
  unfold symbol_find_by_name; rw [symbol_search_live inv h hq]

theorem symbol_find_by_name_fresh {t : sym_table} (inv : table_inv t) {q : List Nat}
    (hq : ∀ nd, live t nd → strcasecmp q nd.symbol.name ≠ 0) :
    symbol_find_by_name t q = some none := by
  unfold symbol_find_by_name; rw [symbol_search_fresh inv hq]

theorem symbol_find_by_addr_eq {t : sym_table} (inv : table_inv t) {a : Int}
    (h0 : 0 ≤ a) (h1 : a < LC3_MEMORY_SIZE) :
    symbol_find_by_addr t a = some (addr_slot t a) := by
  unfold symbol_find_by_addr addr_slot
  cases e : t.addr_table with
  | none => exact absurd e inv.addr
  | some f => simp [h0, h1]

/-- A `symbol_add` of a name that a live node holds, in any case, returns 0 and
leaves the table as it is. -/
theorem symbol_add_dup {t : sym_table} (inv : table_inv t) {nd : node_t}
    (h : live t nd) {name : List Nat} (hq : strcasecmp name nd.symbol.name = 0)
    (addr : Int) : symbol_add t name addr = some (0, t) := by
  unfold symbol_add; rw [symbol_search_live inv h hq]

/-- The table that a successful `symbol_add` leaves. -/
theorem symbol_add_fresh_eq {t : sym_table} (inv : table_inv t) {name : List Nat}
    (hq : ∀ nd, live t nd → strcasecmp name nd.symbol.name ≠ 0) {addr : Int}
    (h0 : 0 ≤ addr) (h1 : addr < LC3_MEMORY_SIZE) {chain : List node_t}
    (hc : t.hash_table[(bucket_index t name).toNat]? = some chain) :
    symbol_add t name addr = some (1,
      { t with
        hash_table := t.hash_table.set (bucket_index t name).toNat
          ({ hash := symbol_hash name, symbol := { name := strdup name, addr := addr } }
            :: chain)
        addr_table := some (fun a => if a = addr then some (strdup name) else addr_slot t a)
        size := t.size + 1 }) := by
  obtain ⟨b0, _⟩ := bucket_index_bounds inv.cap_pos name
  unfold symbol_add; rw [symbol_search_fresh inv hq]
  simp only [hash_table_at, b0, if_true, hc]
  unfold addr_slot
  cases e : t.addr_table with
  | none => exact absurd e inv.addr
  | some f => simp [h0, h1]


/-- A successful `symbol_add`: the value returned is 1, the invariant is kept,
the new node is live with the nodes that were, `size` grows by one and the
slot of the address holds the copy of the name. -/
theorem symbol_add_fresh {t : sym_table} (inv : table_inv t) {name : List Nat}
    (hq : ∀ nd, live t nd → strcasecmp name nd.symbol.name ≠ 0) {addr : Int}
    (h0 : 0 ≤ addr) (h1 : addr < LC3_MEMORY_SIZE) :
    ∃ t', symbol_add t name addr = some (1, t') ∧ table_inv t' ∧
      t'.capacity = t.capacity ∧ t'.size = t.size + 1 ∧
      (∀ a, addr_slot t' a = if a = addr then some (strdup name) else addr_slot t a) ∧
      (∀ nd, live t' nd ↔
        nd = new_node name addr ∨ live t nd) := by
  obtain ⟨chain, hc⟩ := bucket_exists inv name
  obtain ⟨b0, b1⟩ := bucket_index_bounds inv.cap_pos name
  have hlt : (bucket_index t name).toNat < t.hash_table.length := by
    rw [inv.len]; omega
  refine ⟨_, symbol_add_fresh_eq inv hq h0 h1 hc, ?_, rfl, rfl, ?_, ?_⟩
  · constructor
    · exact inv.cap_pos
    · simp only [List.length_set]; exact inv.len
    · intro j chain' hj nd hm
      simp only [List.getElem?_set, hlt, if_true] at hj
      split_ifs at hj with hij
      · cases hj
        subst hij
        rcases List.mem_cons.mp hm with rfl | hm
        · refine ⟨(symbol_hash_strdup name).symm, ?_⟩
          simp only
          have : Int.tmod (symbol_hash name) t.capacity = bucket_index t name := rfl
          rw [this]; omega
        · exact inv.node_hash _ chain hc nd hm
      · exact inv.node_hash j chain' hj nd hm
    · intro j chain' hj
      simp only [List.getElem?_set, hlt, if_true] at hj
      split_ifs at hj with hij
      · cases hj
        refine List.pairwise_cons.mpr ⟨?_, inv.uniq _ chain hc⟩
        intro nd hm hz
        simp only at hz
        have hz2 : strcasecmp name nd.symbol.name = 0 :=
          strcasecmp_trans ((strcasecmp_strdup_right name name).mpr
            ((strcasecmp_eq_zero_iff name name).mpr rfl)) hz
        exact hq nd ⟨_, chain, hc, hm⟩ hz2
      · exact inv.uniq j chain' hj
    · simp
  · intro a; simp [addr_slot]
  · intro nd
    constructor
    · rintro ⟨j, chain', hj, hm⟩
      simp only [List.getElem?_set, hlt, if_true] at hj
      split_ifs at hj with hij
      · cases hj
        rcases List.mem_cons.mp hm with rfl | hm
        · exact Or.inl rfl
        · exact Or.inr ⟨_, chain, hc, hm⟩
      · exact Or.inr ⟨j, chain', hj, hm⟩
    · rintro (rfl | ⟨j, chain', hj, hm⟩)
      · exact ⟨(bucket_index t name).toNat,
          { hash := symbol_hash name, symbol := { name := strdup name, addr := addr } }
            :: chain,
          by simp [List.getElem?_set, hlt], List.mem_cons_self _ _⟩
      · by_cases hij : (bucket_index t name).toNat = j
        · subst hij
          rw [hc] at hj; cases hj
          exact ⟨(bucket_index t name).toNat,
            { hash := symbol_hash name, symbol := { name := strdup name, addr := addr } }
              :: chain,
            by simp [List.getElem?_set, hlt], List.mem_cons_of_mem _ hm⟩
        · exact ⟨j, chain', by simp [List.getElem?_set, hij, hj], hm⟩

/-- The two outcomes of a `symbol_add` with an address in range on a table
that satisfies the invariant. -/
theorem symbol_add_cases {t : sym_table} (inv : table_inv t) (name : List Nat)
    {addr : Int} (h0 : 0 ≤ addr) (h1 : addr < LC3_MEMORY_SIZE) :
    (symbol_add t name addr = some (0, t) ∧
        ∃ nd, live t nd ∧ strcasecmp name nd.symbol.name = 0) ∨
    (∃ t', symbol_add t name addr = some (1, t') ∧ table_inv t' ∧
      t'.capacity = t.capacity ∧ t'.size = t.size + 1 ∧
      (∀ a, addr_slot t' a = if a = addr then some (strdup name) else addr_slot t a) ∧
      (∀ nd, live t' nd ↔
        nd = new_node name addr ∨ live t nd) ∧
      (∀ nd, live t nd → strcasecmp name nd.symbol.name ≠ 0)) := by
  by_cases hq : ∃ nd, live t nd ∧ strcasecmp name nd.symbol.name = 0
  · obtain ⟨nd, hl, hz⟩ := hq
    exact Or.inl ⟨symbol_add_dup inv hl hz addr, nd, hl, hz⟩
  · have hq' : ∀ nd, live t nd → strcasecmp name nd.symbol.name ≠ 0 :=
      fun nd hl hz => hq ⟨nd, hl, hz⟩
    obtain ⟨t', h⟩ := symbol_add_fresh inv hq' h0 h1
    exact Or.inr ⟨t', h.1, h.2.1, h.2.2.1, h.2.2.2.1, h.2.2.2.2.1, h.2.2.2.2.2, hq'⟩

theorem table_inv_init {capacity : Int} (h : 0 < capacity) :
    table_inv (symbol_init capacity) := by
  constructor
  · exact h
  · simp [symbol_init]
  · intro i chain hc nd hm
    simp only [symbol_init] at hc
    rw [List.getElem?_replicate] at hc
    split_ifs at hc
    cases hc; simp at hm
  · intro i chain hc
    simp only [symbol_init] at hc
    rw [List.getElem?_replicate] at hc
    split_ifs at hc
    cases hc; exact List.Pairwise.nil
  · simp [symbol_init]

theorem not_live_init (capacity : Int) (nd : node_t) : ¬ live (symbol_init capacity) nd := by
  rintro ⟨i, chain, hc, hm⟩
  simp only [symbol_init] at hc
  rw [List.getElem?_replicate] at hc
  split_ifs at hc
  cases hc; simp at hm

theorem addr_slot_init (capacity : Int) (a : Int) : addr_slot (symbol_init capacity) a = none :=
  rfl


/-- A `symbol_add` of a name that no live node holds with an address out of
`[0, LC3_MEMORY_SIZE)` writes out of the bounds of `addr_table`. -/
theorem symbol_add_out_of_range {t : sym_table} (inv : table_inv t) {name : List Nat}
    (hq : ∀ nd, live t nd → strcasecmp name nd.symbol.name ≠ 0) {addr : Int}
    (h : ¬ (0 ≤ addr ∧ addr < LC3_MEMORY_SIZE)) :
    symbol_add t name addr = none := by
  obtain ⟨chain, hc⟩ := bucket_exists inv name
  obtain ⟨b0, _⟩ := bucket_index_bounds inv.cap_pos name
  unfold symbol_add; rw [symbol_search_fresh inv hq]
  simp only [hash_table_at, b0, if_true, hc]
  cases e : t.addr_table with
  | none => exact absurd e inv.addr
  | some f => simp [h]

/-- The two outcomes of a `symbol_add` that returns. -/
theorem symbol_add_of_some {t : sym_table} (inv : table_inv t) {name : List Nat}
    {addr r : Int} {t' : sym_table} (h : symbol_add t name addr = some (r, t')) :
    (r = 0 ∧ t' = t ∧ ∃ nd, live t nd ∧ strcasecmp name nd.symbol.name = 0) ∨
    (r = 1 ∧ table_inv t' ∧ t'.capacity = t.capacity ∧ t'.size = t.size + 1 ∧
      (0 ≤ addr ∧ addr < LC3_MEMORY_SIZE) ∧
      (∀ a, addr_slot t' a = if a = addr then some (strdup name) else addr_slot t a) ∧
      (∀ nd, live t' nd ↔ nd = new_node name addr ∨ live t nd) ∧
      (∀ nd, live t nd → strcasecmp name nd.symbol.name ≠ 0)) := by
  by_cases hq : ∃ nd, live t nd ∧ strcasecmp name nd.symbol.name = 0
  · obtain ⟨nd, hl, hz⟩ := hq
    rw [symbol_add_dup inv hl hz addr] at h
    cases h
    exact Or.inl ⟨rfl, rfl, nd, hl, hz⟩
  · have hq' : ∀ nd, live t nd → strcasecmp name nd.symbol.name ≠ 0 :=
      fun nd hl hz => hq ⟨nd, hl, hz⟩
    by_cases hr : 0 ≤ addr ∧ addr < LC3_MEMORY_SIZE
    · obtain ⟨t1, h1, hinv, hcap, hsize, hslot, hlive⟩ := symbol_add_fresh inv hq' hr.1 hr.2
      rw [h1] at h
      cases h
      exact Or.inr ⟨rfl, hinv, hcap, hsize, hr, hslot, hlive, hq'⟩
    · rw [symbol_add_out_of_range inv hq' hr] at h
      cases h

theorem adds_facts_nil (t : sym_table) (inv : table_inv t) : adds_facts t [] [] t where
  inv := inv
  cap := rfl
  len := rfl
  ret := by simp
  size := by simp
  mono := fun _ h => h
  added := by simp
  origin := fun _ h => Or.inl h
  slot_same := fun _ _ => rfl

theorem symbol_adds_cons_some {t : sym_table} {name : List Nat} {addr : Int}
    {calls : List (List Nat × Int)} {rs : List Int} {t' : sym_table}
    (h : symbol_adds t ((name, addr) :: calls) = some (rs, t')) :
    ∃ r t1 rs1, symbol_add t name addr = some (r, t1) ∧
      symbol_adds t1 calls = some (rs1, t') ∧ rs = r :: rs1 := by
  unfold symbol_adds at h
  cases e1 : symbol_add t name addr with
  | none => simp [e1] at h
  | some p1 =>
    obtain ⟨r, t1⟩ := p1
    cases e2 : symbol_adds t1 calls with
    | none => simp [e1, e2] at h
    | some p2 =>
      obtain ⟨rs1, t2⟩ := p2
      simp only [e1, e2, Option.some.injEq, Prod.mk.injEq] at h
      obtain ⟨h1, h2⟩ := h
      subst h1; subst h2
      exact ⟨r, t1, rs1, rfl, e2, rfl⟩

/-- Every run of `symbol_add` calls that returns, from a table that satisfies
the invariant, has the effects of `adds_facts`. -/
theorem symbol_adds_spec {t : sym_table} (inv : table_inv t)
    {calls : List (List Nat × Int)} {rs : List Int} {t' : sym_table}
    (h : symbol_adds t calls = some (rs, t')) : adds_facts t calls rs t' := by
  induction calls generalizing t rs with
  | nil =>
    simp only [symbol_adds, Option.some.injEq, Prod.mk.injEq] at h
    obtain ⟨h1, h2⟩ := h
    subst h1; subst h2
    exact adds_facts_nil t inv
  | cons c calls ih =>
    obtain ⟨name, addr⟩ := c
    obtain ⟨r, t1, rs1, ha, hs, rfl⟩ := symbol_adds_cons_some h
    rcases symbol_add_of_some inv ha with ⟨hr, ht, -⟩ | ⟨hr, inv1, hcap, hsize, -, hslot, hlive, -⟩
    · subst hr; subst ht
      have f := ih inv hs
      exact
        { inv := f.inv
          cap := f.cap
          len := by simp [f.len]
          ret := by
            intro r hr
            rcases List.mem_cons.mp hr with rfl | hr
            · exact Or.inl rfl
            · exact f.ret r hr
          size := by rw [f.size]; simp
          mono := f.mono
          added := by
            intro p hp hp1
            simp only [List.zip_cons_cons, List.mem_cons] at hp
            rcases hp with rfl | hp
            · simp at hp1
            · exact f.added p hp hp1
          origin := by
            intro nd hl
            rcases f.origin nd hl with h1 | ⟨p, hp, hp1⟩
            · exact Or.inl h1
            · exact Or.inr ⟨p, by simp [hp], hp1⟩
          slot_same := by
            intro a ha
            apply f.slot_same
            intro p hp
            exact ha p (by simp [hp]) }
    · subst hr
      have f := ih inv1 hs
      exact
        { inv := f.inv
          cap := by rw [f.cap, hcap]
          len := by simp [f.len]
          ret := by
            intro r hr
            rcases List.mem_cons.mp hr with rfl | hr
            · exact Or.inr rfl
            · exact f.ret r hr
          size := by rw [f.size, hsize]; simp; ring
          mono := fun nd hl => f.mono nd ((hlive nd).mpr (Or.inr hl))
          added := by
            intro p hp hp1
            simp only [List.zip_cons_cons, List.mem_cons] at hp
            rcases hp with rfl | hp
            · exact f.mono _ ((hlive _).mpr (Or.inl rfl))
            · exact f.added p hp hp1
          origin := by
            intro nd hl
            rcases f.origin nd hl with h1 | ⟨p, hp, hp1⟩
            · rcases (hlive nd).mp h1 with h2 | h2
              · exact Or.inr ⟨((name, addr), 1), by simp, rfl, h2⟩
              · exact Or.inl h2
            · exact Or.inr ⟨p, by simp [hp], hp1⟩
          slot_same := by
            intro a ha
            rw [f.slot_same a (fun p hp => ha p (by simp [hp])), hslot a]
            have : addr ≠ a := ha ((name, addr), 1) (by simp) rfl
            simp [Ne.symm this] }

/-- A run of `symbol_add` calls with addresses in `[0, LC3_MEMORY_SIZE)` on a
table that satisfies the invariant returns. -/
theorem symbol_adds_defined {t : sym_table} (inv : table_inv t)
    (calls : List (List Nat × Int))
    (hr : ∀ p ∈ calls, 0 ≤ p.2 ∧ p.2 < LC3_MEMORY_SIZE) :
    ∃ rs t', symbol_adds t calls = some (rs, t') := by
  induction calls generalizing t with
  | nil => exact ⟨[], t, rfl⟩
  | cons c calls ih =>
    obtain ⟨name, addr⟩ := c
    have hc := hr (name, addr) (List.mem_cons_self _ _)
    have hr' : ∀ p ∈ calls, 0 ≤ p.2 ∧ p.2 < LC3_MEMORY_SIZE :=
      fun p hp => hr p (List.mem_cons_of_mem _ hp)
    rcases symbol_add_cases inv name hc.1 hc.2 with ⟨ha, -⟩ | ⟨t1, ha, inv1, -⟩
    · obtain ⟨rs, t', hs⟩ := ih inv hr'
      exact ⟨0 :: rs, t', by simp [symbol_adds, ha, hs]⟩
    · obtain ⟨rs, t', hs⟩ := ih inv1 hr'
      exact ⟨1 :: rs, t', by simp [symbol_adds, ha, hs]⟩


theorem symbol_reset_loop_spec (n : Nat) : ∀ (i : Nat) (ht : List (List node_t)),
    i + n ≤ ht.length →
    ∃ ht', symbol_reset_loop i n ht = some ht' ∧ ht'.length = ht.length ∧
      ∀ j, ht'[j]? = if i ≤ j ∧ j < i + n then some [] else ht[j]? := by
  induction n with
  | zero =>
    intro i ht _
    refine ⟨ht, rfl, rfl, ?_⟩
    intro j
    have : ¬ (i ≤ j ∧ j < i + 0) := by omega
    rw [if_neg this]
  | succ n ih =>
    intro i ht hle
    have hi : i < ht.length := by omega
    obtain ⟨ht', h1, h2, h3⟩ := ih (i + 1) (ht.set i []) (by simp; omega)
    refine ⟨ht', ?_, by simpa using h2, ?_⟩
    · simp only [symbol_reset_loop, List.getElem?_eq_getElem hi]
      exact h1
    · intro j
      rw [h3 j, List.getElem?_set]
      by_cases hij : i = j
      · subst hij
        have c1 : ¬ (i + 1 ≤ i ∧ i < i + 1 + n) := by omega
        have c2 : i ≤ i ∧ i < i + (n + 1) := by omega
        simp [c1, c2, hi]
      · by_cases c1 : i + 1 ≤ j ∧ j < i + 1 + n
        · have c2 : i ≤ j ∧ j < i + (n + 1) := by omega
          simp [c1, c2]
        · have c2 : ¬ (i ≤ j ∧ j < i + (n + 1)) := by omega
          simp [c1, c2, hij]

/-- On a table that satisfies the invariant `symbol_reset` returns, every
bucket is empty after it and the other fields are as before. -/
theorem symbol_reset_spec {t : sym_table} (inv : table_inv t) :
    ∃ t', symbol_reset t = some t' ∧ table_inv t' ∧ (∀ nd, ¬ live t' nd) ∧
      t'.capacity = t.capacity ∧ t'.size = t.size ∧ t'.addr_table = t.addr_table := by
  obtain ⟨ht', h1, h2, h3⟩ :=
    symbol_reset_loop_spec t.capacity.toNat 0 t.hash_table (by rw [inv.len]; omega)
  have hempty : ∀ (j : Nat) (chain : List node_t), ht'[j]? = some chain → chain = [] := by
    intro j chain hj
    rw [h3 j] at hj
    split_ifs at hj with c
    · cases hj; rfl
    · have : t.hash_table.length ≤ j := by rw [inv.len]; omega
      rw [List.getElem?_eq_none this] at hj; cases hj
  refine ⟨{ t with hash_table := ht' }, by simp [symbol_reset, h1], ?_, ?_, rfl, rfl, rfl⟩
  · constructor
    · exact inv.cap_pos
    · simp only; rw [h2]; exact inv.len
    · intro j chain hj nd hm
      rw [hempty j chain hj] at hm; simp at hm
    · intro j chain hj
      rw [hempty j chain hj]; exact List.Pairwise.nil
    · exact inv.addr
  · rintro nd ⟨j, chain, hj, hm⟩
    rw [hempty j chain hj] at hm; simp at hm


/-! The properties of the interface. -/

/-- C1: in a table reached from `symbol_init capacity`, `0 < capacity`, by
`symbol_add` calls, a pair `(name, addr)` for which `symbol_add` returned 1 is
found by `symbol_find_by_name` under every casing variant `query` of `name`,
after any further `symbol_add` calls, and the symbol found has the address
`addr`. -/
theorem symbol_find_by_name_added (capacity : Int) (hcap : 0 < capacity)
    (pre post : List (List Nat × Int)) (name : List Nat) (addr : Int)
    (rs1 rs2 : List Int) (t1 t2 t3 : sym_table)
    (h1 : symbol_adds (symbol_init capacity) pre = some (rs1, t1))
    (h2 : symbol_add t1 name addr = some (1, t2))
    (h3 : symbol_adds t2 post = some (rs2, t3))
    (query : List Nat) (hq : strcasecmp query name = 0) :
    ∃ sym, symbol_find_by_name t3 query = some (some sym) ∧ sym.addr = addr := by
  have f1 := symbol_adds_spec (table_inv_init hcap) h1
  rcases symbol_add_of_some f1.inv h2 with ⟨hr, -⟩ | ⟨-, inv2, -, -, -, -, hlive, -⟩
  · exact absurd hr (by decide)
  · have f3 := symbol_adds_spec inv2 h3
    have hl : live t3 (new_node name addr) := f3.mono _ ((hlive _).mpr (Or.inl rfl))
    refine ⟨(new_node name addr).symbol, ?_, rfl⟩
    exact symbol_find_by_name_live f3.inv hl ((strcasecmp_strdup_right query name).mpr hq)

/-- C1, on the table of capacity 4 with "a" at 10, "Beta" at 20 and "G" at 30:
the query "bEtA" finds the address 20. -/
theorem symbol_find_by_name_added_witness :
    (0 : Int) < 4 ∧
    strcasecmp [98, 69, 116, 65] [66, 101, 116, 97] = 0 ∧
    ∃ sym, symbol_find_by_name
        (symbol_adds_table (symbol_init 4) [([97], 10), ([66, 101, 116, 97], 20), ([71], 30)])
        [98, 69, 116, 65] = some (some sym) ∧ sym.addr = 20 :=
  ⟨by decide, by decide,
    symbol_find_by_name_added 4 (by decide) [([97], 10)] [([71], 30)] [66, 101, 116, 97] 20
      [1] [1] (symbol_adds_table (symbol_init 4) [([97], 10)])
      (symbol_adds_table (symbol_init 4) [([97], 10), ([66, 101, 116, 97], 20)])
      (symbol_adds_table (symbol_init 4) [([97], 10), ([66, 101, 116, 97], 20), ([71], 30)])
      rfl rfl rfl [98, 69, 116, 65] (by decide)⟩


/-- C2: in a table reached from `symbol_init capacity`, `0 < capacity`, by
`symbol_add` calls, once a name `m` has been inserted (its `symbol_add`
returned 1), `symbol_add` of a name `n` equal to `m` under `strcasecmp`, in the
same or another case, returns 0 for every address `a`, and `symbol_size` is
after the call what it was before. -/
theorem symbol_add_duplicate (capacity : Int) (hcap : 0 < capacity)
    (pre post : List (List Nat × Int)) (m : List Nat) (am : Int)
    (rs1 rs2 : List Int) (t1 t2 t3 : sym_table)
    (h1 : symbol_adds (symbol_init capacity) pre = some (rs1, t1))
    (h2 : symbol_add t1 m am = some (1, t2))
    (h3 : symbol_adds t2 post = some (rs2, t3))
    (n : List Nat) (hn : strcasecmp n m = 0) (a : Int) :
    ∃ t4, symbol_add t3 n a = some (0, t4) ∧ symbol_size t4 = symbol_size t3 := by
  have f1 := symbol_adds_spec (table_inv_init hcap) h1
  rcases symbol_add_of_some f1.inv h2 with ⟨hr, -⟩ | ⟨-, inv2, -, -, -, -, hlive, -⟩
  · exact absurd hr (by decide)
  · have f3 := symbol_adds_spec inv2 h3
    have hl : live t3 (new_node m am) := f3.mono _ ((hlive _).mpr (Or.inl rfl))
    exact ⟨t3, symbol_add_dup f3.inv hl ((strcasecmp_strdup_right n m).mpr hn) a, rfl⟩

/-- C2, on the table of capacity 4 with "a" at 10, "Beta" at 20 and "G" at 30:
`symbol_add` of "bEtA" at the address 70000 returns 0. -/
theorem symbol_add_duplicate_witness :
    (0 : Int) < 4 ∧
    strcasecmp [98, 69, 116, 65] [66, 101, 116, 97] = 0 ∧
    ∃ t4, symbol_add
        (symbol_adds_table (symbol_init 4) [([97], 10), ([66, 101, 116, 97], 20), ([71], 30)])
        [98, 69, 116, 65] 70000 = some (0, t4) ∧
      symbol_size t4 = symbol_size
        (symbol_adds_table (symbol_init 4) [([97], 10), ([66, 101, 116, 97], 20), ([71], 30)]) :=
  ⟨by decide, by decide,
    symbol_add_duplicate 4 (by decide) [([97], 10)] [([71], 30)] [66, 101, 116, 97] 20
      [1] [1] (symbol_adds_table (symbol_init 4) [([97], 10)])
      (symbol_adds_table (symbol_init 4) [([97], 10), ([66, 101, 116, 97], 20)])
      (symbol_adds_table (symbol_init 4) [([97], 10), ([66, 101, 116, 97], 20), ([71], 30)])
      rfl rfl rfl [98, 69, 116, 65] (by decide) 70000⟩

/-- C3: in a table reached from `symbol_init capacity`, `0 < capacity`, by
`symbol_add` calls, when the `symbol_add` of `name` at the address `a` returned
1 and no later `symbol_add` at `a` returned 1, `symbol_find_by_addr` returns at
`a` the copy of `name` that this call stored, and `symbol_find_by_name` still
finds, with the address `a`, `name` and every name that an earlier call
inserted at `a`. -/
theorem symbol_find_by_addr_last (capacity : Int) (hcap : 0 < capacity)
    (pre post : List (List Nat × Int)) (name : List Nat) (a : Int)
    (rs1 rs2 : List Int) (t1 t2 t3 : sym_table)
    (h1 : symbol_adds (symbol_init capacity) pre = some (rs1, t1))
    (h2 : symbol_add t1 name a = some (1, t2))
    (h3 : symbol_adds t2 post = some (rs2, t3))
    (hlast : ∀ p ∈ post.zip rs2, p.2 = 1 → p.1.2 ≠ a) :
    symbol_find_by_addr t3 a = some (some (strdup name)) ∧
    symbol_find_by_name t3 name = some (some { name := strdup name, addr := a }) ∧
    ∀ p ∈ pre.zip rs1, p.2 = 1 → p.1.2 = a →
      symbol_find_by_name t3 p.1.1 = some (some { name := strdup p.1.1, addr := a }) := by
  have f1 := symbol_adds_spec (table_inv_init hcap) h1
  rcases symbol_add_of_some f1.inv h2 with ⟨hr, -⟩ | ⟨-, inv2, -, -, hrange, hslot, hlive, -⟩
  · exact absurd hr (by decide)
  · have f3 := symbol_adds_spec inv2 h3
    have hself : ∀ s : List Nat, strcasecmp s (strdup s) = 0 := fun s =>
      (strcasecmp_strdup_right s s).mpr ((strcasecmp_eq_zero_iff s s).mpr rfl)
    refine ⟨?_, ?_, ?_⟩
    · rw [symbol_find_by_addr_eq f3.inv hrange.1 hrange.2, f3.slot_same a hlast, hslot a]
      simp
    · have hl : live t3 (new_node name a) := f3.mono _ ((hlive _).mpr (Or.inl rfl))
      exact symbol_find_by_name_live f3.inv hl (hself name)
    · intro p hp hp1 hpa
      have hl1 : live t1 (new_node p.1.1 p.1.2) := f1.added p hp hp1
      have hl : live t3 (new_node p.1.1 p.1.2) := f3.mono _ ((hlive _).mpr (Or.inr hl1))
      have := symbol_find_by_name_live f3.inv hl (hself p.1.1)
      rw [hpa] at this
      exact this

/-- C3, on the table of capacity 4 with "a" at 20, then "Beta" at 20, then "G"
at 30 and a rejected "BETA" at 20: the address 20 gives "Beta", and both "a"
and "Beta" are found by name. -/
theorem symbol_find_by_addr_last_witness :
    (0 : Int) < 4 ∧
    symbol_find_by_addr
        (symbol_adds_table (symbol_init 4)
          [([97], 20), ([66, 101, 116, 97], 20), ([71], 30), ([66, 69, 84, 65], 20)]) 20
      = some (some (strdup [66, 101, 116, 97])) ∧
    symbol_find_by_name
        (symbol_adds_table (symbol_init 4)
          [([97], 20), ([66, 101, 116, 97], 20), ([71], 30), ([66, 69, 84, 65], 20)])
        [66, 101, 116, 97]
      = some (some { name := strdup [66, 101, 116, 97], addr := 20 }) ∧
    ∀ p ∈ [([97], (20 : Int))].zip [(1 : Int)], p.2 = 1 → p.1.2 = 20 →
      symbol_find_by_name
        (symbol_adds_table (symbol_init 4)
          [([97], 20), ([66, 101, 116, 97], 20), ([71], 30), ([66, 69, 84, 65], 20)])
        p.1.1 = some (some { name := strdup p.1.1, addr := 20 }) :=
  ⟨by decide,
    symbol_find_by_addr_last 4 (by decide) [([97], 20)] [([71], 30), ([66, 69, 84, 65], 20)]
      [66, 101, 116, 97] 20 [1] [1, 0]
      (symbol_adds_table (symbol_init 4) [([97], 20)])
      (symbol_adds_table (symbol_init 4) [([97], 20), ([66, 101, 116, 97], 20)])
      (symbol_adds_table (symbol_init 4)
        [([97], 20), ([66, 101, 116, 97], 20), ([71], 30), ([66, 69, 84, 65], 20)])
      rfl rfl rfl (by decide)⟩


/-- C4: on the table of capacity 4 that holds ("Beta", 20), ("alpha", 10) and
("Gamma", 20), `symbol_order` builds the array alpha, Beta, Gamma for `NAME`
and alpha (10), Beta (20), Gamma (20) for `ADDR`, and returns `NULL` for both
criteria, not the array. -/
theorem symbol_order_returns_null :
    symbol_order_srtSymb
        (symbol_adds_table (symbol_init 4)
          [([66, 101, 116, 97], 20), ([97, 108, 112, 104, 97], 10), ([71, 97, 109, 109, 97], 20)])
        order_t.NAME
      = some [some { name := [97, 108, 112, 104, 97], addr := 10 },
          some { name := [66, 101, 116, 97], addr := 20 },
          some { name := [71, 97, 109, 109, 97], addr := 20 }] ∧
    symbol_order_srtSymb
        (symbol_adds_table (symbol_init 4)
          [([66, 101, 116, 97], 20), ([97, 108, 112, 104, 97], 10), ([71, 97, 109, 109, 97], 20)])
        order_t.ADDR
      = some [some { name := [97, 108, 112, 104, 97], addr := 10 },
          some { name := [66, 101, 116, 97], addr := 20 },
          some { name := [71, 97, 109, 109, 97], addr := 20 }] ∧
    symbol_order
        (symbol_adds_table (symbol_init 4)
          [([66, 101, 116, 97], 20), ([97, 108, 112, 104, 97], 10), ([71, 97, 109, 109, 97], 20)])
        order_t.NAME = some none ∧
    symbol_order
        (symbol_adds_table (symbol_init 4)
          [([66, 101, 116, 97], 20), ([97, 108, 112, 104, 97], 10), ([71, 97, 109, 109, 97], 20)])
        order_t.ADDR = some none := by
  refine ⟨by decide, by decide, by decide, by decide⟩

/-- C5: on the table of capacity 1 with one symbol "a" at 0, `symbol_size`
called right after `symbol_reset` returns 1, not 0: `symbol_reset` empties the
buckets and leaves `size` as it was. -/
theorem symbol_size_after_reset :
    symbol_size (symbol_adds_table (symbol_init 1) [([97], 0)]) = 1 ∧
    (symbol_reset (symbol_adds_table (symbol_init 1) [([97], 0)])).map symbol_size
      = some 1 ∧
    (symbol_reset (symbol_adds_table (symbol_init 1) [([97], 0)])).map
        (fun t => t.hash_table) = some [[]] := by
  refine ⟨by decide, by decide, by decide⟩


/-- C6: on a table reached from `symbol_init capacity`, `0 < capacity`, by
`symbol_add` calls, `symbol_reset` returns, after it `symbol_find_by_name`
returns `NULL` for every name, inserted before or not and in any case, and
`symbol_add` of any name at an address in `[0, LC3_MEMORY_SIZE)` returns 1 and
inserts it: in the table after this call `symbol_find_by_name` finds the name,
under every casing variant, with the copy of the name and the address of the
call. -/
theorem symbol_find_by_name_after_reset (capacity : Int) (hcap : 0 < capacity)
    (calls : List (List Nat × Int)) (rs : List Int) (t : sym_table)
    (h : symbol_adds (symbol_init capacity) calls = some (rs, t)) :
    ∃ t0, symbol_reset t = some t0 ∧
      (∀ n, symbol_find_by_name t0 n = some none) ∧
      (∀ n addr, 0 ≤ addr → addr < LC3_MEMORY_SIZE →
        ∃ t1, symbol_add t0 n addr = some (1, t1) ∧
          ∀ query, strcasecmp query n = 0 →
            symbol_find_by_name t1 query =
              some (some { name := strdup n, addr := addr })) := by
  have f := symbol_adds_spec (table_inv_init hcap) h
  obtain ⟨t0, hr, inv0, hno, -⟩ := symbol_reset_spec f.inv
  refine ⟨t0, hr, ?_, ?_⟩
  · intro n
    exact symbol_find_by_name_fresh inv0 (fun nd hl => absurd hl (hno nd))
  · intro n addr h0 h1
    have hf : ∀ nd, live t0 nd → strcasecmp n nd.symbol.name ≠ 0 :=
      fun nd hl => absurd hl (hno nd)
    obtain ⟨t1, ha, inv1, -, -, -, hlive⟩ := symbol_add_fresh inv0 hf h0 h1
    refine ⟨t1, ha, ?_⟩
    intro query hq
    exact symbol_find_by_name_live inv1 ((hlive _).mpr (Or.inl rfl))
      ((strcasecmp_strdup_right query n).mpr hq)

/-- C6, on the table of capacity 4 with "a" at 10 and "Beta" at 20: after the
reset "beta" is not found, `symbol_add` of "Beta" at 30 returns 1, and then
"beta" finds "Beta" at 30. -/
theorem symbol_find_by_name_after_reset_witness :
    (0 : Int) < 4 ∧
    ∃ t0, symbol_reset
        (symbol_adds_table (symbol_init 4) [([97], 10), ([66, 101, 116, 97], 20)]) = some t0 ∧
      symbol_find_by_name t0 [98, 101, 116, 97] = some none ∧
      ∃ t1, symbol_add t0 [66, 101, 116, 97] 30 = some (1, t1) ∧
        symbol_find_by_name t1 [98, 101, 116, 97] =
          some (some { name := strdup [66, 101, 116, 97], addr := 30 }) :=
  ⟨by decide,
    (symbol_find_by_name_after_reset 4 (by decide) [([97], 10), ([66, 101, 116, 97], 20)]
      [1, 1] (symbol_adds_table (symbol_init 4) [([97], 10), ([66, 101, 116, 97], 20)])
      rfl).imp (fun _ ht0 =>
        ⟨ht0.1, ht0.2.1 [98, 101, 116, 97],
          (ht0.2.2 [66, 101, 116, 97] 30 (by decide) (by decide)).imp
            (fun _ ht1 => ⟨ht1.1, ht1.2 [98, 101, 116, 97] (by decide)⟩)⟩)⟩

/-- C7: for a table made by `symbol_init capacity`, `0 < capacity`, and a run
of `symbol_add` calls on it, `symbol_size` is the number of the calls that
returned 1. -/
theorem symbol_size_counts_added (capacity : Int) (hcap : 0 < capacity)
    (calls : List (List Nat × Int)) (rs : List Int) (t : sym_table)
    (h : symbol_adds (symbol_init capacity) calls = some (rs, t)) :
    symbol_size t = (rs.count 1 : Nat) := by
  have f := symbol_adds_spec (table_inv_init hcap) h
  unfold symbol_size
  rw [f.size]
  simp [symbol_init]

/-- C7, on the run "a" at 10, "Beta" at 20, "BETA" at 30, "A" at 10 on a table
of capacity 4: two calls return 1 and `symbol_size` is 2. -/
theorem symbol_size_counts_added_witness :
    (0 : Int) < 4 ∧
    symbol_size (symbol_adds_table (symbol_init 4)
        [([97], 10), ([66, 101, 116, 97], 20), ([66, 69, 84, 65], 30), ([65], 10)])
      = (([1, 1, 0, 0] : List Int).count 1 : Nat) :=
  ⟨by decide,
    symbol_size_counts_added 4 (by decide)
      [([97], 10), ([66, 101, 116, 97], 20), ([66, 69, 84, 65], 30), ([65], 10)] [1, 1, 0, 0]
      (symbol_adds_table (symbol_init 4)
        [([97], 10), ([66, 101, 116, 97], 20), ([66, 69, 84, 65], 30), ([65], 10)]) rfl⟩

/-- A run of `symbol_add` calls with addresses in range and names that are
pairwise different under `strcasecmp`, none of them held by a live node:
every call returns 1. -/
theorem symbol_adds_distinct {t : sym_table} (inv : table_inv t)
    (calls : List (List Nat × Int))
    (hr : ∀ p ∈ calls, 0 ≤ p.2 ∧ p.2 < LC3_MEMORY_SIZE)
    (hd : calls.Pairwise (fun p q => strcasecmp p.1 q.1 ≠ 0))
    (hfresh : ∀ p ∈ calls, ∀ nd, live t nd → strcasecmp p.1 nd.symbol.name ≠ 0) :
    ∃ t', symbol_adds t calls = some (List.replicate calls.length 1, t') := by
  induction calls generalizing t with
  | nil => exact ⟨t, rfl⟩
  | cons c calls ih =>
    obtain ⟨name, addr⟩ := c
    have hc := hr (name, addr) (List.mem_cons_self _ _)
    obtain ⟨hd1, hd2⟩ := List.pairwise_cons.mp hd
    obtain ⟨t1, ha, inv1, -, -, -, hlive⟩ :=
      symbol_add_fresh inv (hfresh (name, addr) (List.mem_cons_self _ _)) hc.1 hc.2
    obtain ⟨t', hs⟩ := ih inv1 (fun p hp => hr p (List.mem_cons_of_mem _ hp)) hd2 (by
      intro p hp nd hl
      rcases (hlive nd).mp hl with rfl | hl
      · intro hz
        have hz1 : strcasecmp p.1 name = 0 := (strcasecmp_strdup_right p.1 name).mp hz
        exact hd1 p hp (strcasecmp_symm hz1)
      · exact hfresh p (List.mem_cons_of_mem _ hp) nd hl)
    exact ⟨t', by simp [symbol_adds, ha, hs, List.replicate_succ]⟩

/-- C8: on a table made by `symbol_init capacity`, `0 < capacity` and capacity
1 among them, for every list of N names that are pairwise different under
`strcasecmp`, with addresses in `[0, LC3_MEMORY_SIZE)`, all the N `symbol_add`
calls return 1, `symbol_size` is N, and `symbol_find_by_name` finds each of the
names with its own address. -/
theorem symbol_add_beyond_capacity (capacity : Int) (hcap : 0 < capacity)
    (calls : List (List Nat × Int))
    (hr : ∀ p ∈ calls, 0 ≤ p.2 ∧ p.2 < LC3_MEMORY_SIZE)
    (hd : calls.Pairwise (fun p q => strcasecmp p.1 q.1 ≠ 0)) :
    ∃ t, symbol_adds (symbol_init capacity) calls = some (List.replicate calls.length 1, t) ∧
      symbol_size t = (calls.length : Nat) ∧
      ∀ p ∈ calls,
        symbol_find_by_name t p.1 = some (some { name := strdup p.1, addr := p.2 }) := by
  obtain ⟨t, h⟩ := symbol_adds_distinct (table_inv_init hcap) calls hr hd
    (fun p _ nd hl => absurd hl (not_live_init capacity nd))
  have f := symbol_adds_spec (table_inv_init hcap) h
  refine ⟨t, h, ?_, ?_⟩
  · unfold symbol_size
    rw [f.size]
    simp [symbol_init]
  · intro p hp
    have hz : (p, (1 : Int)) ∈ calls.zip (List.replicate calls.length 1) := by
      obtain ⟨i, hi, rfl⟩ := List.getElem_of_mem hp
      have : (calls.zip (List.replicate calls.length (1 : Int)))[i]? = some (calls[i], 1) := by
        simp [List.getElem?_zip_eq_some, hi]
      exact List.getElem?_mem this
    have hl := f.added (p, 1) hz rfl
    exact symbol_find_by_name_live f.inv hl
      ((strcasecmp_strdup_right p.1 p.1).mpr ((strcasecmp_eq_zero_iff p.1 p.1).mpr rfl))

/-- C8, on a table of capacity 1 with the three names "a", "Beta" and "G". -/
theorem symbol_add_beyond_capacity_witness :
    (0 : Int) < 1 ∧
    ∃ t, symbol_adds (symbol_init 1) [([97], 10), ([66, 101, 116, 97], 20), ([71], 20)]
        = some (List.replicate 3 1, t) ∧
      symbol_size t = ((3 : Nat) : Int) ∧
      ∀ p ∈ [([97], (10 : Int)), ([66, 101, 116, 97], 20), ([71], 20)],
        symbol_find_by_name t p.1 = some (some { name := strdup p.1, addr := p.2 }) :=
  ⟨by decide,
    symbol_add_beyond_capacity 1 (by decide) [([97], 10), ([66, 101, 116, 97], 20), ([71], 20)]
      (by decide) (by decide)⟩


/-- C9: in a table reached from `symbol_init capacity`, `0 < capacity`, by
`symbol_add` calls, `symbol_find_by_name` returns `NULL` for a name `n` when no
name equal to `n` under `strcasecmp` was inserted, whatever the hash of `n`
is. -/
theorem symbol_find_by_name_absent (capacity : Int) (hcap : 0 < capacity)
    (calls : List (List Nat × Int)) (rs : List Int) (t : sym_table)
    (h : symbol_adds (symbol_init capacity) calls = some (rs, t))
    (n : List Nat) (hn : ∀ p ∈ calls.zip rs, p.2 = 1 → strcasecmp n p.1.1 ≠ 0) :
    symbol_find_by_name t n = some none := by
  have f := symbol_adds_spec (table_inv_init hcap) h
  apply symbol_find_by_name_fresh f.inv
  intro nd hl hz
  rcases f.origin nd hl with h0 | ⟨p, hp, hp1, rfl⟩
  · exact not_live_init capacity nd h0
  · exact hn p hp hp1 ((strcasecmp_strdup_right n p.1.1).mp hz)

/-- C9, on the table of capacity 4 with "ar" at 10 and "Beta" at 20: the name
"c0" has the hash of "ar", is in the bucket of "ar", and is not found. -/
theorem symbol_find_by_name_absent_witness :
    (0 : Int) < 4 ∧
    symbol_hash [99, 48] = symbol_hash [97, 114] ∧
    symbol_find_by_name
        (symbol_adds_table (symbol_init 4) [([97, 114], 10), ([66, 101, 116, 97], 20)])
        [99, 48] = some none :=
  ⟨by decide, by decide,
    symbol_find_by_name_absent 4 (by decide) [([97, 114], 10), ([66, 101, 116, 97], 20)]
      [1, 1] (symbol_adds_table (symbol_init 4) [([97, 114], 10), ([66, 101, 116, 97], 20)])
      rfl [99, 48] (by decide)⟩

/-- C10: for a table made by `symbol_init capacity`, `0 < capacity`, and a run
of `symbol_add` calls on it, `symbol_find_by_addr` returns `NULL` at every
address `a` of `[0, LC3_MEMORY_SIZE)` at which no `symbol_add` returned 1, the
addresses of the rejected calls among them. -/
theorem symbol_find_by_addr_absent (capacity : Int) (hcap : 0 < capacity)
    (calls : List (List Nat × Int)) (rs : List Int) (t : sym_table)
    (h : symbol_adds (symbol_init capacity) calls = some (rs, t))
    (a : Int) (h0 : 0 ≤ a) (h1 : a < LC3_MEMORY_SIZE)
    (ha : ∀ p ∈ calls.zip rs, p.2 = 1 → p.1.2 ≠ a) :
    symbol_find_by_addr t a = some none := by
  have f := symbol_adds_spec (table_inv_init hcap) h
  rw [symbol_find_by_addr_eq f.inv h0 h1, f.slot_same a ha, addr_slot_init]

/-- C10, on the run "a" at 10, "Beta" at 20, "BETA" at 30 on a table of
capacity 4: the third call is rejected and the address 30 has no name. -/
theorem symbol_find_by_addr_absent_witness :
    (0 : Int) < 4 ∧ (0 : Int) ≤ 30 ∧ (30 : Int) < LC3_MEMORY_SIZE ∧
    symbol_find_by_addr
        (symbol_adds_table (symbol_init 4)
          [([97], 10), ([66, 101, 116, 97], 20), ([66, 69, 84, 65], 30)]) 30 = some none :=
  ⟨by decide, by decide, by decide,
    symbol_find_by_addr_absent 4 (by decide)
      [([97], 10), ([66, 101, 116, 97], 20), ([66, 69, 84, 65], 30)] [1, 1, 0]
      (symbol_adds_table (symbol_init 4)
        [([97], 10), ([66, 101, 116, 97], 20), ([66, 69, 84, 65], 30)])
      rfl 30 (by decide) (by decide) (by decide)⟩


/-! Runs with `symbol_reset`. -/

theorem symbol_reset_of_some {t t' : sym_table} (inv : table_inv t)
    (h : symbol_reset t = some t') :
    table_inv t' ∧ (∀ nd, ¬ live t' nd) ∧ t'.capacity = t.capacity ∧ t'.size = t.size ∧
      t'.addr_table = t.addr_table := by
  obtain ⟨t1, h1, hr⟩ := symbol_reset_spec inv
  rw [h1] at h
  cases h
  exact hr

/-- Every table that a run of `symbol_add` and `symbol_reset` calls reaches
from a table with the invariant has the invariant and the same capacity. -/
theorem symbol_calls_inv {t : sym_table} (inv : table_inv t) {calls : List call_t}
    {t' : sym_table} (h : symbol_calls t calls = some t') :
    table_inv t' ∧ t'.capacity = t.capacity := by
  induction calls generalizing t with
  | nil =>
    simp only [symbol_calls, Option.some.injEq] at h
    subst h
    exact ⟨inv, rfl⟩
  | cons c calls ih =>
    cases c with
    | add name addr =>
      simp only [symbol_calls] at h
      cases e : symbol_add t name addr with
      | none => simp [e] at h
      | some p =>
        obtain ⟨r, t1⟩ := p
        simp only [e] at h
        rcases symbol_add_of_some inv e with ⟨-, ht, -⟩ | ⟨-, inv1, hcap, -⟩
        · subst ht; exact ih inv h
        · obtain ⟨i2, c2⟩ := ih inv1 h
          exact ⟨i2, by rw [c2, hcap]⟩
    | reset =>
      simp only [symbol_calls] at h
      cases e : symbol_reset t with
      | none => simp [e] at h
      | some t1 =>
        simp only [e] at h
        obtain ⟨inv1, -, hcap, -⟩ := symbol_reset_of_some inv e
        obtain ⟨i2, c2⟩ := ih inv1 h
        exact ⟨i2, by rw [c2, hcap]⟩

/-- C12: in every table reached from `symbol_init capacity`, `0 < capacity`, by
`symbol_add` and `symbol_reset` calls, two chain entries whose names are equal
under `strcasecmp` are one entry: the same bucket and the same place on its
chain. -/
theorem symbol_names_unique (capacity : Int) (hcap : 0 < capacity)
    (calls : List call_t) (t : sym_table)
    (h : symbol_calls (symbol_init capacity) calls = some t)
    (i j : Nat) (ci cj : List node_t)
    (hi : t.hash_table[i]? = some ci) (hj : t.hash_table[j]? = some cj)
    (k l : Nat) (a b : node_t) (hk : ci[k]? = some a) (hl : cj[l]? = some b)
    (hab : strcasecmp a.symbol.name b.symbol.name = 0) :
    i = j ∧ k = l := by
  obtain ⟨inv, -⟩ := symbol_calls_inv (table_inv_init hcap) h
  obtain ⟨ea, ia⟩ := inv.node_hash i ci hi a (List.getElem?_mem hk)
  obtain ⟨eb, ib⟩ := inv.node_hash j cj hj b (List.getElem?_mem hl)
  have hij : i = j := by
    have : a.hash = b.hash := by rw [ea, eb]; exact symbol_hash_of_strcasecmp hab
    rw [this, ib] at ia
    exact_mod_cast ia.symm
  subst hij
  rw [hi] at hj
  cases hj
  refine ⟨rfl, ?_⟩
  have hp := inv.uniq i ci hi
  rw [List.pairwise_iff_getElem] at hp
  obtain ⟨hk1, hk2⟩ := List.getElem?_eq_some.mp hk
  obtain ⟨hl1, hl2⟩ := List.getElem?_eq_some.mp hl
  rcases Nat.lt_trichotomy k l with hlt | heq | hgt
  · exact absurd (by rw [hk2, hl2]; exact hab) (hp k l hk1 hl1 hlt)
  · exact heq
  · exact absurd (by rw [hk2, hl2]; exact strcasecmp_symm hab) (hp l k hl1 hk1 hgt)

/-- C12, on the table of capacity 2 after "a" at 1, "b" at 2, a rejected "A", a
reset, "B" at 4 and "a" at 5: the head of the bucket 0 holds "a" and is
compared with itself. -/
theorem symbol_names_unique_witness :
    (0 : Int) < 2 ∧
    (symbol_calls_table (symbol_init 2)
      [call_t.add [97] 1, call_t.add [98] 2, call_t.add [65] 3, call_t.reset,
        call_t.add [66] 4, call_t.add [97] 5]).hash_table[0]? = some [new_node [97] 5] ∧
    [new_node [97] 5][0]? = some (new_node [97] 5) ∧
    strcasecmp (new_node [97] 5).symbol.name (new_node [97] 5).symbol.name = 0 ∧
    (0 = 0 ∧ 0 = 0) :=
  ⟨by decide, by decide, by decide, by decide,
    symbol_names_unique 2 (by decide)
      [call_t.add [97] 1, call_t.add [98] 2, call_t.add [65] 3, call_t.reset,
        call_t.add [66] 4, call_t.add [97] 5]
      (symbol_calls_table (symbol_init 2)
        [call_t.add [97] 1, call_t.add [98] 2, call_t.add [65] 3, call_t.reset,
          call_t.add [66] 4, call_t.add [97] 5]) rfl
      0 0 [new_node [97] 5] [new_node [97] 5] (by decide) (by decide)
      0 0 (new_node [97] 5) (new_node [97] 5) (by decide) (by decide) (by decide)⟩

/-- C13: on the table of capacity 1 with one symbol "a" at 0, after
`symbol_reset` no bucket holds a node, and the slot 0 of the address table
still holds the name "a" that the reset has freed, so `symbol_find_by_addr`
returns it and not `NULL`. -/
theorem symbol_find_by_addr_after_reset :
    (symbol_calls_table (symbol_init 1) [call_t.add [97] 0, call_t.reset]).hash_table
      = [[]] ∧
    symbol_find_by_addr
      (symbol_calls_table (symbol_init 1) [call_t.add [97] 0, call_t.reset]) 0
      = some (some [97]) := by
  refine ⟨by decide, by decide⟩

theorem symbol_find_by_addr_of_table {t : sym_table} {addr_table : Int → Option (List Nat)}
    (h : t.addr_table = some addr_table) (addr : Int) :
    symbol_find_by_addr t addr =
      if 0 ≤ addr ∧ addr < LC3_MEMORY_SIZE then some (addr_table addr) else none := by
  unfold symbol_find_by_addr
  rw [h]

/-- C14, as stated, fails: on the table that `symbol_init 1` makes,
`symbol_find_by_addr` at 65536 and at -1 does not return `NULL`, it reads
`addr_table` out of its bounds. -/
theorem symbol_find_by_addr_out_of_range_counterexample :
    ¬ (symbol_find_by_addr (symbol_init 1) 65536 = some none) ∧
    symbol_find_by_addr (symbol_init 1) 65536 = none ∧
    symbol_find_by_addr (symbol_init 1) (-1) = none := by
  refine ⟨by decide, by decide, by decide⟩

/-- C14, amended: `symbol_find_by_addr` checks no bound. For a table with an
address table it returns the slot `addr_table[addr]` for `addr` in
`[0, LC3_MEMORY_SIZE)`, and for `addr` out of this range the read of
`addr_table[addr]` is out of the bounds of the array, which is undefined. -/
theorem symbol_find_by_addr_unchecked (t : sym_table)
    (addr_table : Int → Option (List Nat)) (h : t.addr_table = some addr_table)
    (addr : Int) :
    (0 ≤ addr ∧ addr < LC3_MEMORY_SIZE →
      symbol_find_by_addr t addr = some (addr_table addr)) ∧
    (¬ (0 ≤ addr ∧ addr < LC3_MEMORY_SIZE) → symbol_find_by_addr t addr = none) := by
  rw [symbol_find_by_addr_of_table h]
  constructor
  · intro hr; rw [if_pos hr]
  · intro hr; rw [if_neg hr]

/-- C14, amended, on the table that `symbol_init 1` makes: the address 5 gives
its empty slot, the address 65536 is read out of bounds. -/
theorem symbol_find_by_addr_unchecked_witness :
    (symbol_init 1).addr_table = some (fun _ => none) ∧
    symbol_find_by_addr (symbol_init 1) 5 = some none ∧
    symbol_find_by_addr (symbol_init 1) 65536 = none :=
  ⟨rfl,
    (symbol_find_by_addr_unchecked (symbol_init 1) (fun _ => none) rfl 5).1 (by decide),
    (symbol_find_by_addr_unchecked (symbol_init 1) (fun _ => none) rfl 65536).2 (by decide)⟩

/-- C15, as stated, fails: on the table that `symbol_init 1` makes,
`symbol_add` of the new name "a" at 65536 or at -1 does not return 1, it
writes `addr_table` out of its bounds. -/
theorem symbol_add_out_of_range_counterexample :
    (¬ ∃ t, symbol_add (symbol_init 1) [97] 65536 = some (1, t)) ∧
    symbol_add (symbol_init 1) [97] 65536 = none ∧
    symbol_add (symbol_init 1) [97] (-1) = none := by
  have h1 : symbol_add (symbol_init 1) [97] 65536 = none := rfl
  refine ⟨?_, h1, rfl⟩
  rintro ⟨t, ht⟩
  rw [h1] at ht
  cases ht

/-- C15, amended: `symbol_add` checks no bound before it writes
`addr_table[addr]`. In a table reached from `symbol_init capacity`,
`0 < capacity`, by `symbol_add` and `symbol_reset` calls, for a name that no
live node holds: with `addr` in `[0, LC3_MEMORY_SIZE)` `symbol_add` returns 1,
the name is found by `symbol_find_by_name` with `addr`, `symbol_size` grows by
one, and the slot `addr` is the one slot of the address table that is written;
with `addr` out of this range the write is out of the bounds of the array,
which is undefined. -/
theorem symbol_add_unchecked (capacity : Int) (hcap : 0 < capacity)
    (calls : List call_t) (t : sym_table)
    (h : symbol_calls (symbol_init capacity) calls = some t)
    (name : List Nat) (hname : symbol_find_by_name t name = some none) (addr : Int) :
    (0 ≤ addr ∧ addr < LC3_MEMORY_SIZE →
      ∃ t', symbol_add t name addr = some (1, t') ∧
        symbol_find_by_name t' name = some (some { name := strdup name, addr := addr }) ∧
        symbol_size t' = symbol_size t + 1 ∧
        symbol_find_by_addr t' addr = some (some (strdup name)) ∧
        ∀ a, a ≠ addr → symbol_find_by_addr t' a = symbol_find_by_addr t a) ∧
    (¬ (0 ≤ addr ∧ addr < LC3_MEMORY_SIZE) → symbol_add t name addr = none) := by
  obtain ⟨inv, -⟩ := symbol_calls_inv (table_inv_init hcap) h
  have hq : ∀ nd, live t nd → strcasecmp name nd.symbol.name ≠ 0 := by
    intro nd hl hz
    rw [symbol_find_by_name_live inv hl hz] at hname
    cases hname
  constructor
  · intro hr
    obtain ⟨t', ha, inv', -, hsize, hslot, hlive⟩ := symbol_add_fresh inv hq hr.1 hr.2
    refine ⟨t', ha, ?_, hsize, ?_, ?_⟩
    · exact symbol_find_by_name_live inv' ((hlive _).mpr (Or.inl rfl))
        ((strcasecmp_strdup_right name name).mpr ((strcasecmp_eq_zero_iff name name).mpr rfl))
    · rw [symbol_find_by_addr_eq inv' hr.1 hr.2, hslot]; simp
    · intro a hne
      by_cases har : 0 ≤ a ∧ a < LC3_MEMORY_SIZE
      · rw [symbol_find_by_addr_eq inv' har.1 har.2, symbol_find_by_addr_eq inv har.1 har.2,
          hslot, if_neg hne]
      · cases e : t.addr_table with
        | none => exact absurd e inv.addr
        | some f =>
          cases e' : t'.addr_table with
          | none => exact absurd e' inv'.addr
          | some f' =>
            rw [symbol_find_by_addr_of_table e, symbol_find_by_addr_of_table e',
              if_neg har, if_neg har]
  · intro hr
    exact symbol_add_out_of_range inv hq hr

/-- C15, amended, on the table of capacity 1 with "b" at 7 and the new name
"a": at the address 3 it is inserted and the slot 3 holds it, at the address
65536 the write is out of bounds. -/
theorem symbol_add_unchecked_witness :
    (0 : Int) < 1 ∧
    symbol_find_by_name (symbol_calls_table (symbol_init 1) [call_t.add [98] 7]) [97]
      = some none ∧
    (∃ t', symbol_add (symbol_calls_table (symbol_init 1) [call_t.add [98] 7]) [97] 3
        = some (1, t') ∧
      symbol_find_by_name t' [97] = some (some { name := strdup [97], addr := 3 }) ∧
      symbol_size t' = symbol_size (symbol_calls_table (symbol_init 1) [call_t.add [98] 7]) + 1 ∧
      symbol_find_by_addr t' 3 = some (some (strdup [97])) ∧
      ∀ a, a ≠ 3 → symbol_find_by_addr t' a =
        symbol_find_by_addr (symbol_calls_table (symbol_init 1) [call_t.add [98] 7]) a) ∧
    symbol_add (symbol_calls_table (symbol_init 1) [call_t.add [98] 7]) [97] 65536 = none :=
  ⟨by decide, by decide,
    (symbol_add_unchecked 1 (by decide) [call_t.add [98] 7]
      (symbol_calls_table (symbol_init 1) [call_t.add [98] 7]) rfl [97] (by decide) 3).1
      (by decide),
    (symbol_add_unchecked 1 (by decide) [call_t.add [98] 7]
      (symbol_calls_table (symbol_init 1) [call_t.add [98] 7]) rfl [97] (by decide) 65536).2
      (by decide)⟩

/-- C16, as stated, fails: on the table of capacity 4, `symbol_add` of "a" at
20 and then of "Beta" at 20 both return 1 and "A" still finds the symbol
named "a" at 20, but `symbol_find_by_addr` returns "Beta" at 20 and not the
spelling "a". -/
theorem symbol_name_case_preserved_counterexample :
    (symbol_adds (symbol_init 4) [([97], 20), ([66, 101, 116, 97], 20)]).map (fun p => p.1)
      = some [1, 1] ∧
    symbol_find_by_name
        (symbol_adds_table (symbol_init 4) [([97], 20), ([66, 101, 116, 97], 20)]) [65]
      = some (some { name := [97], addr := 20 }) ∧
    symbol_find_by_addr
        (symbol_adds_table (symbol_init 4) [([97], 20), ([66, 101, 116, 97], 20)]) 20
      = some (some [66, 101, 116, 97]) ∧
    ¬ (symbol_find_by_addr
        (symbol_adds_table (symbol_init 4) [([97], 20), ([66, 101, 116, 97], 20)]) 20
      = some (some [97])) := by
  refine ⟨by decide, by decide, by decide, by decide⟩

/-- C16, amended: in a table reached from `symbol_init capacity`,
`0 < capacity`, by `symbol_add` calls, for a name whose `symbol_add` at `addr`
returned 1, every casing variant `query` of the name makes
`symbol_find_by_name` return the symbol with the copy of the name as it was
passed to that call, byte for byte (not the spelling of `query`, not a
case-folded form), and `symbol_find_by_addr` returns that copy at `addr` as
long as no later `symbol_add` at `addr` returned 1. -/
theorem symbol_name_case_preserved (capacity : Int) (hcap : 0 < capacity)
    (pre post : List (List Nat × Int)) (name : List Nat) (addr : Int)
    (rs1 rs2 : List Int) (t1 t2 t3 : sym_table)
    (h1 : symbol_adds (symbol_init capacity) pre = some (rs1, t1))
    (h2 : symbol_add t1 name addr = some (1, t2))
    (h3 : symbol_adds t2 post = some (rs2, t3))
    (hname : ∀ c ∈ name, c ≠ 0)
    (query : List Nat) (hq : strcasecmp query name = 0) :
    symbol_find_by_name t3 query = some (some { name := name, addr := addr }) ∧
    ((∀ p ∈ post.zip rs2, p.2 = 1 → p.1.2 ≠ addr) →
      symbol_find_by_addr t3 addr = some (some name)) := by
  have f1 := symbol_adds_spec (table_inv_init hcap) h1
  rcases symbol_add_of_some f1.inv h2 with ⟨hr, -⟩ | ⟨-, inv2, -, -, hrange, hslot, hlive, -⟩
  · exact absurd hr (by decide)
  · have f3 := symbol_adds_spec inv2 h3
    have hl : live t3 (new_node name addr) := f3.mono _ ((hlive _).mpr (Or.inl rfl))
    have hfind := symbol_find_by_name_live f3.inv hl
      ((strcasecmp_strdup_right query name).mpr hq)
    simp only [new_node, strdup_eq_self hname] at hfind
    refine ⟨hfind, ?_⟩
    intro hlast
    rw [symbol_find_by_addr_eq f3.inv hrange.1 hrange.2, f3.slot_same addr hlast, hslot addr,
      strdup_eq_self hname]
    simp

/-- C16, amended, on the table of capacity 4 with "a" at 10, "BeTa" at 20 and
"G" at 30: the query "beta" finds the symbol named "BeTa", and the address 20 gives
"BeTa". -/
theorem symbol_name_case_preserved_witness :
    (0 : Int) < 4 ∧
    (∀ c ∈ [66, 101, 84, 97], c ≠ 0) ∧
    strcasecmp [98, 101, 116, 97] [66, 101, 84, 97] = 0 ∧
    symbol_find_by_name
        (symbol_adds_table (symbol_init 4) [([97], 10), ([66, 101, 84, 97], 20), ([71], 30)])
        [98, 101, 116, 97] = some (some { name := [66, 101, 84, 97], addr := 20 }) ∧
    symbol_find_by_addr
        (symbol_adds_table (symbol_init 4) [([97], 10), ([66, 101, 84, 97], 20), ([71], 30)])
        20 = some (some [66, 101, 84, 97]) :=
  ⟨by decide, by decide, by decide,
    (symbol_name_case_preserved 4 (by decide) [([97], 10)] [([71], 30)] [66, 101, 84, 97] 20
      [1] [1] (symbol_adds_table (symbol_init 4) [([97], 10)])
      (symbol_adds_table (symbol_init 4) [([97], 10), ([66, 101, 84, 97], 20)])
      (symbol_adds_table (symbol_init 4) [([97], 10), ([66, 101, 84, 97], 20), ([71], 30)])
      rfl rfl rfl (by decide) [98, 101, 116, 97] (by decide)).1,
    (symbol_name_case_preserved 4 (by decide) [([97], 10)] [([71], 30)] [66, 101, 84, 97] 20
      [1] [1] (symbol_adds_table (symbol_init 4) [([97], 10)])
      (symbol_adds_table (symbol_init 4) [([97], 10), ([66, 101, 84, 97], 20)])
      (symbol_adds_table (symbol_init 4) [([97], 10), ([66, 101, 84, 97], 20), ([71], 30)])
      rfl rfl rfl (by decide) [98, 101, 116, 97] (by decide)).2 (by decide)⟩

theorem symbol_hash_lt (name : List Nat) : symbol_hash name < 2 ^ 31 := by
  unfold symbol_hash
  have h : symbol_hash_loop ULONG_BITS 5381 name &&& 0x7FFFFFFF ≤ 0x7FFFFFFF :=
    Nat.and_le_right
  have h2 : ((symbol_hash_loop ULONG_BITS 5381 name &&& 0x7FFFFFFF : Nat) : Int)
      ≤ ((0x7FFFFFFF : Nat) : Int) := Int.ofNat_le.mpr h
  have h3 : ((0x7FFFFFFF : Nat) : Int) < 2 ^ 31 := by norm_num
  exact lt_of_le_of_lt h2 h3

/-- C18: `symbol_hash` of every name is in `[0, 2^31)`; in a table reached from
`symbol_init capacity`, `0 < capacity`, by `symbol_add` and `symbol_reset`
calls, the capacity is `capacity`, the table has its `capacity` buckets, the
index `symbol_hash(name) % capacity` is in `[0, capacity)`, and
`symbol_search`, and `symbol_add` with an address in `[0, LC3_MEMORY_SIZE)`,
return: no division by zero and no access out of the buckets. -/
theorem symbol_bucket_index_in_bounds (capacity : Int) (hcap : 0 < capacity)
    (calls : List call_t) (t : sym_table)
    (h : symbol_calls (symbol_init capacity) calls = some t) (name : List Nat) :
    0 ≤ symbol_hash name ∧ symbol_hash name < 2 ^ 31 ∧
    t.capacity = capacity ∧ t.hash_table.length = capacity.toNat ∧
    0 ≤ Int.tmod (symbol_hash name) t.capacity ∧
    Int.tmod (symbol_hash name) t.capacity < capacity ∧
    (Int.tmod (symbol_hash name) t.capacity).toNat < t.hash_table.length ∧
    (∃ found, symbol_search t name =
      some (found, symbol_hash name, Int.tmod (symbol_hash name) t.capacity)) ∧
    ∀ addr, 0 ≤ addr → addr < LC3_MEMORY_SIZE →
      ∃ r t', symbol_add t name addr = some (r, t') := by
  obtain ⟨inv, hc⟩ := symbol_calls_inv (table_inv_init hcap) h
  have hc' : t.capacity = capacity := hc
  obtain ⟨b0, b1⟩ := bucket_index_bounds inv.cap_pos name
  unfold bucket_index at b0 b1
  obtain ⟨chain, hchain⟩ := bucket_exists inv name
  refine ⟨symbol_hash_nonneg name, symbol_hash_lt name, hc', ?_, b0, ?_, ?_, ?_, ?_⟩
  · rw [inv.len, hc']
  · rw [← hc']; exact b1
  · rw [inv.len]; omega
  · exact ⟨_, symbol_search_eq inv name hchain⟩
  · intro addr h0 h1
    rcases symbol_add_cases inv name h0 h1 with ⟨ha, -⟩ | ⟨t', ha, -⟩
    · exact ⟨0, t, ha⟩
    · exact ⟨1, t', ha⟩

/-- C18, on the table of capacity 3 after "a" at 1, a reset and "Beta" at 2,
for the name "Gamma". -/
theorem symbol_bucket_index_in_bounds_witness :
    (0 : Int) < 3 ∧
    Int.tmod (symbol_hash [71, 97, 109, 109, 97])
      (symbol_calls_table (symbol_init 3)
        [call_t.add [97] 1, call_t.reset, call_t.add [66, 101, 116, 97] 2]).capacity < 3 ∧
    ∃ found, symbol_search
        (symbol_calls_table (symbol_init 3)
          [call_t.add [97] 1, call_t.reset, call_t.add [66, 101, 116, 97] 2])
        [71, 97, 109, 109, 97] =
      some (found, symbol_hash [71, 97, 109, 109, 97],
        Int.tmod (symbol_hash [71, 97, 109, 109, 97])
          (symbol_calls_table (symbol_init 3)
            [call_t.add [97] 1, call_t.reset, call_t.add [66, 101, 116, 97] 2]).capacity) :=
  ⟨by decide,
    (symbol_bucket_index_in_bounds 3 (by decide)
      [call_t.add [97] 1, call_t.reset, call_t.add [66, 101, 116, 97] 2]
      (symbol_calls_table (symbol_init 3)
        [call_t.add [97] 1, call_t.reset, call_t.add [66, 101, 116, 97] 2])
      rfl [71, 97, 109, 109, 97]).2.2.2.2.2.1,
    (symbol_bucket_index_in_bounds 3 (by decide)
      [call_t.add [97] 1, call_t.reset, call_t.add [66, 101, 116, 97] 2]
      (symbol_calls_table (symbol_init 3)
        [call_t.add [97] 1, call_t.reset, call_t.add [66, 101, 116, 97] 2])
      rfl [71, 97, 109, 109, 97]).2.2.2.2.2.2.2.1⟩

/-- A `symbol_add` that returns 0 returns the table it was given. -/
theorem symbol_add_zero_eq {t t' : sym_table} {n : List Nat} {a : Int}
    (h : symbol_add t n a = some (0, t')) : t' = t := by
  unfold symbol_add at h
  split at h
  · cases h
  · simp only [Option.some.injEq, Prod.mk.injEq] at h
    exact h.2.symm
  · split at h
    · cases h
    · split at h
      · simp at h
      · split_ifs at h
        simp at h

/-- C20: in a table reached from `symbol_init capacity`, `0 < capacity`, by
`symbol_add` and `symbol_reset` calls, a `symbol_add(n, a)` that returns 0
leaves the table as it was, buckets, chains, stored names and addresses, size
and address table: a live node holds a name equal to `n` under `strcasecmp`,
`symbol_find_by_name(n)` returns its symbol before and after the call, and
`symbol_find_by_addr` returns at every address, `a` among them, what it
returned before. -/
theorem symbol_add_rejected_atomic (capacity : Int) (hcap : 0 < capacity)
    (calls : List call_t) (t : sym_table)
    (h : symbol_calls (symbol_init capacity) calls = some t)
    (n : List Nat) (a : Int) (t' : sym_table)
    (h0 : symbol_add t n a = some (0, t')) :
    t' = t ∧
    (∃ nd, live t nd ∧ strcasecmp n nd.symbol.name = 0 ∧
      symbol_find_by_name t n = some (some nd.symbol) ∧
      symbol_find_by_name t' n = some (some nd.symbol)) ∧
    ∀ b, symbol_find_by_addr t' b = symbol_find_by_addr t b := by
  obtain ⟨inv, -⟩ := symbol_calls_inv (table_inv_init hcap) h
  have ht : t' = t := symbol_add_zero_eq h0
  subst ht
  refine ⟨rfl, ?_, fun _ => rfl⟩
  rcases symbol_add_of_some inv h0 with ⟨-, -, nd, hl, hz⟩ | ⟨hr, -⟩
  · exact ⟨nd, hl, hz, symbol_find_by_name_live inv hl hz, symbol_find_by_name_live inv hl hz⟩
  · exact absurd hr (by decide)

/-- C20, on the table of capacity 4 with "a" at 10 and "Beta" at 20: the
rejected `symbol_add` of "BETA" at 10 leaves "Beta" at 20 and "a" at the
address 10. -/
theorem symbol_add_rejected_atomic_witness :
    (0 : Int) < 4 ∧
    symbol_add
        (symbol_calls_table (symbol_init 4) [call_t.add [97] 10, call_t.add [66, 101, 116, 97] 20])
        [66, 69, 84, 65] 10
      = some (0, symbol_calls_table (symbol_init 4)
          [call_t.add [97] 10, call_t.add [66, 101, 116, 97] 20]) ∧
    symbol_find_by_name
        (symbol_calls_table (symbol_init 4) [call_t.add [97] 10, call_t.add [66, 101, 116, 97] 20])
        [66, 69, 84, 65] = some (some { name := [66, 101, 116, 97], addr := 20 }) ∧
    symbol_find_by_addr
        (symbol_calls_table (symbol_init 4) [call_t.add [97] 10, call_t.add [66, 101, 116, 97] 20])
        10 = some (some [97]) ∧
    ∀ b, symbol_find_by_addr
        (symbol_calls_table (symbol_init 4) [call_t.add [97] 10, call_t.add [66, 101, 116, 97] 20])
        b =
      symbol_find_by_addr
        (symbol_calls_table (symbol_init 4) [call_t.add [97] 10, call_t.add [66, 101, 116, 97] 20])
        b :=
  ⟨by decide, rfl, by decide, by decide,
    (symbol_add_rejected_atomic 4 (by decide)
      [call_t.add [97] 10, call_t.add [66, 101, 116, 97] 20]
      (symbol_calls_table (symbol_init 4) [call_t.add [97] 10, call_t.add [66, 101, 116, 97] 20])
      rfl [66, 69, 84, 65] 10
      (symbol_calls_table (symbol_init 4) [call_t.add [97] 10, call_t.add [66, 101, 116, 97] 20])
      rfl).2.2⟩

theorem djb_fold_congr (m : Nat) (s : List Nat) : ∀ {h h' : Nat}, h ≡ h' [MOD m] →
    s.foldl (fun h c => h * 33 + tolower c) h ≡
      s.foldl (fun h c => h * 33 + tolower c) h' [MOD m] := by
  induction s with
  | nil => intro h h' e; exact e
  | cons c s ih =>
    intro h h' e
    simp only [List.foldl_cons]
    exact ih ((e.mul_right 33).add_right (tolower c))

theorem symbol_hash_step_modEq (bits h c : Nat) :
    (((h <<< 5) % 2 ^ bits + h) % 2 ^ bits + c) % 2 ^ bits ≡ h * 33 + c [MOD 2 ^ bits] := by
  have e : h <<< 5 = h * 32 := by simp [Nat.shiftLeft_eq]
  rw [e]
  calc ((h * 32 % 2 ^ bits + h) % 2 ^ bits + c) % 2 ^ bits
      ≡ (h * 32 % 2 ^ bits + h) % 2 ^ bits + c [MOD 2 ^ bits] := Nat.mod_modEq _ _
    _ ≡ (h * 32 % 2 ^ bits + h) + c [MOD 2 ^ bits] := (Nat.mod_modEq _ _).add_right _
    _ ≡ (h * 32 + h) + c [MOD 2 ^ bits] := ((Nat.mod_modEq _ _).add_right _).add_right _
    _ = h * 33 + c := by ring

/-- The loop of `symbol_hash`, in `unsigned long` arithmetic of any width, is
congruent modulo `2 ^ bits` to the hash over the unbounded integers. -/
theorem symbol_hash_loop_modEq (bits : Nat) (s : List Nat) (hs : ∀ c ∈ s, c ≠ 0) :
    ∀ h : Nat, symbol_hash_loop bits h s ≡
      s.foldl (fun h c => h * 33 + tolower c) h [MOD 2 ^ bits] := by
  induction s with
  | nil => intro h; exact Nat.ModEq.refl _
  | cons c s ih =>
    intro h
    have hc : c ≠ 0 := hs c (List.mem_cons_self _ _)
    simp only [symbol_hash_loop, hc, if_false, List.foldl_cons]
    exact (ih (fun d hd => hs d (List.mem_cons_of_mem _ hd)) _).trans
      (djb_fold_congr _ s (symbol_hash_step_modEq bits h (tolower c)))

theorem symbol_hash_loop_mask (bits : Nat) (hbits : 31 ≤ bits) (s : List Nat)
    (hs : ∀ c ∈ s, c ≠ 0) :
    symbol_hash_loop bits 5381 s &&& 0x7FFFFFFF = djb_hash s % 2 ^ 31 := by
  have e : (0x7FFFFFFF : Nat) = 2 ^ 31 - 1 := by norm_num
  rw [e, Nat.and_pow_two_sub_one_eq_mod]
  exact Nat.ModEq.of_dvd (pow_dvd_pow 2 hbits) (symbol_hash_loop_modEq bits s hs 5381)

/-- C17: for a name of non-zero bytes, `symbol_hash` is the hash over the
unbounded integers (start at 5381, `h := h * 33 + tolower(c)` for each byte)
modulo `2^31`, for an `unsigned long` of 64 bits, of 32 bits and of every
width from 31 bits on; and two names that are equal under `strcasecmp` have
the same `symbol_hash`. -/
theorem symbol_hash_eq_djb (name : List Nat) (hname : ∀ c ∈ name, c ≠ 0) :
    symbol_hash name = ((djb_hash name % 2 ^ 31 : Nat) : Int) ∧
    (∀ bits, 31 ≤ bits →
      symbol_hash_loop bits 5381 name &&& 0x7FFFFFFF = djb_hash name % 2 ^ 31) ∧
    ∀ other, strcasecmp name other = 0 → symbol_hash name = symbol_hash other := by
  refine ⟨?_, fun bits hbits => symbol_hash_loop_mask bits hbits name hname,
    fun other h => symbol_hash_of_strcasecmp h⟩
  unfold symbol_hash
  rw [symbol_hash_loop_mask ULONG_BITS (by decide) name hname]

/-- C17, on the name "Beta": the hash is 2090109345 for 64 and for 32 bits, and
"bEtA" has the same hash. -/
theorem symbol_hash_eq_djb_witness :
    (∀ c ∈ [66, 101, 116, 97], c ≠ 0) ∧
    djb_hash [66, 101, 116, 97] = 6385076641 ∧
    symbol_hash [66, 101, 116, 97] = (((6385076641 : Nat) % 2 ^ 31 : Nat) : Int) ∧
    symbol_hash_loop 32 5381 [66, 101, 116, 97] &&& 0x7FFFFFFF = 6385076641 % 2 ^ 31 ∧
    symbol_hash [66, 101, 116, 97] = symbol_hash [98, 69, 116, 65] :=
  ⟨by decide, by decide,
    (symbol_hash_eq_djb [66, 101, 116, 97] (by decide)).1,
    (symbol_hash_eq_djb [66, 101, 116, 97] (by decide)).2.1 32 (by decide),
    (symbol_hash_eq_djb [66, 101, 116, 97] (by decide)).2.2 [98, 69, 116, 65] (by decide)⟩

/-! The order of `symbol_iterate`. -/

/-- The buckets after a successful `symbol_add`: the new node is the head of
the chain of its bucket. -/
theorem symbol_add_one_hash_table {t t' : sym_table} (inv : table_inv t)
    {name : List Nat} {addr : Int} (h : symbol_add t name addr = some (1, t')) :
    ∃ chain, t.hash_table[(bucket_index t name).toNat]? = some chain ∧
      t'.hash_table =
        t.hash_table.set (bucket_index t name).toNat (new_node name addr :: chain) := by
  rcases symbol_add_of_some inv h with ⟨hr, -⟩ | ⟨-, -, -, -, hrange, -, -, hq⟩
  · exact absurd hr (by decide)
  · obtain ⟨chain, hc⟩ := bucket_exists inv name
    rw [symbol_add_fresh_eq inv hq hrange.1 hrange.2 hc] at h
    simp only [Option.some.injEq, Prod.mk.injEq, true_and] at h
    subst h
    exact ⟨chain, hc, rfl⟩

theorem added_cons_zero (name : List Nat) (addr : Int) (calls : List (List Nat × Int))
    (rs : List Int) : added ((name, addr) :: calls) (0 :: rs) = added calls rs := by
  simp [added, List.filter_cons]

theorem added_cons_one (name : List Nat) (addr : Int) (calls : List (List Nat × Int))
    (rs : List Int) : added ((name, addr) :: calls) (1 :: rs) = (name, addr) :: added calls rs := by
  simp [added, List.filter_cons]

/-- The chains after a run of `symbol_add` calls: in front of what the chain
of the bucket `i` held, the nodes of the insertions of the run into the bucket
`i`, the last insertion first. -/
theorem symbol_adds_hash_table {t : sym_table} (inv : table_inv t)
    {calls : List (List Nat × Int)} {rs : List Int} {t' : sym_table}
    (h : symbol_adds t calls = some (rs, t')) (i : Nat) (chain : List node_t)
    (hi : t.hash_table[i]? = some chain) :
    t'.hash_table[i]? = some
      ((((added calls rs).reverse.filter
          (fun p => decide (symbol_hash p.1 % t.capacity = (i : Int)))).map
        (fun p => new_node p.1 p.2)) ++ chain) := by
  induction calls generalizing t rs chain with
  | nil =>
    simp only [symbol_adds, Option.some.injEq, Prod.mk.injEq] at h
    obtain ⟨h1, h2⟩ := h
    subst h1; subst h2
    simpa [added] using hi
  | cons c calls ih =>
    obtain ⟨name, addr⟩ := c
    obtain ⟨r, t1, rs1, ha, hs, rfl⟩ := symbol_adds_cons_some h
    rcases symbol_add_of_some inv ha with ⟨hr, ht, -⟩ | ⟨hr, inv1, hcap, -⟩
    · subst hr; subst ht
      rw [added_cons_zero]
      exact ih inv hs chain hi
    · subst hr
      obtain ⟨c0, hc0, hset⟩ := symbol_add_one_hash_table inv ha
      obtain ⟨b0, b1⟩ := bucket_index_bounds inv.cap_pos name
      have hlt : (bucket_index t name).toNat < t.hash_table.length := by
        rw [inv.len]; omega
      have hidx : bucket_index t name = symbol_hash name % t.capacity :=
        Int.tmod_eq_emod (symbol_hash_nonneg name) (le_of_lt inv.cap_pos)
      rw [added_cons_one, List.reverse_cons, List.filter_append, List.map_append,
        List.append_assoc]
      by_cases hij : (bucket_index t name).toNat = i
      · have hp : symbol_hash name % t.capacity = (i : Int) := by
          rw [← hidx, ← hij]; omega
        have h1 : t1.hash_table[i]? = some (new_node name addr :: chain) := by
          rw [hset, List.getElem?_set, if_pos hij, if_pos hlt]
          rw [← hij, hc0] at hi
          cases hi; rfl
        have := ih inv1 hs _ h1
        rw [hcap] at this
        rw [this]
        simp [List.filter_cons, hp]
      · have hp : ¬ symbol_hash name % t.capacity = (i : Int) := by
          intro e; apply hij; rw [hidx, e]; simp
        have h1 : t1.hash_table[i]? = some chain := by
          rw [hset, List.getElem?_set, if_neg hij]; exact hi
        have := ih inv1 hs _ h1
        rw [hcap] at this
        rw [this]
        simp [List.filter_cons, hp]

/-- The loop of `symbol_iterate` over buckets whose chains are known: the
callback is called on the symbols of the chains, bucket after bucket, each
chain from its head. -/
theorem symbol_iterate_loop_eq {δ : Type} (fnc : symbol_t → δ → δ)
    (ht : List (List node_t)) (g : Nat → List symbol_t) (n : Nat) :
    ∀ (i : Nat) (data : δ),
      (∀ j, i ≤ j → j < i + n → ∃ chain, ht[j]? = some chain ∧
        chain.map (fun tmp => tmp.symbol) = g j) →
      symbol_iterate_loop fnc i n ht data =
        some (((List.range' i n).flatMap g).foldl (fun d sym => fnc sym d) data) := by
  induction n with
  | zero => intro i data _; rfl
  | succ n ih =>
    intro i data hg
    obtain ⟨chain, hc, hm⟩ := hg i (le_refl i) (by omega)
    simp only [symbol_iterate_loop, hc, List.range'_succ, List.flatMap_cons, List.foldl_append]
    rw [ih (i + 1) _ (fun j h1 h2 => hg j (by omega) (by omega)), ← hm, List.foldl_map]

/-- The lists of the elements with the keys `s`, `s + 1`, ..., `s + n - 1`, one
after the other, are a permutation of the elements with a key in
`[s, s + n)`. -/
theorem flatMap_filter_perm {α : Type} (l : List α) (k : α → Nat) (n : Nat) :
    ∀ s : Nat, List.Perm
      ((List.range' s n).flatMap (fun i => l.filter (fun x => decide (k x = i))))
      (l.filter (fun x => decide (s ≤ k x ∧ k x < s + n))) := by
  induction n with
  | zero =>
    intro s
    have : l.filter (fun x => decide (s ≤ k x ∧ k x < s + 0)) = [] := by
      rw [List.filter_eq_nil_iff]
      intro x _
      simp only [decide_eq_true_eq]
      omega
    rw [this]
    exact List.Perm.refl _
  | succ n ih =>
    intro s
    rw [List.range'_succ, List.flatMap_cons]
    refine (List.Perm.append_left _ (ih (s + 1))).trans ?_
    have e1 : l.filter (fun x => decide (k x = s)) =
        (l.filter (fun x => decide (s ≤ k x ∧ k x < s + (n + 1)))).filter
          (fun x => decide (k x = s)) := by
      rw [List.filter_filter]
      apply List.filter_congr
      intro x _
      by_cases hx : k x = s
      · have : s ≤ k x ∧ k x < s + (n + 1) := by omega
        simp [hx]
      · simp [hx]
    have e2 : l.filter (fun x => decide (s + 1 ≤ k x ∧ k x < s + 1 + n)) =
        (l.filter (fun x => decide (s ≤ k x ∧ k x < s + (n + 1)))).filter
          (fun x => !decide (k x = s)) := by
      rw [List.filter_filter]
      apply List.filter_congr
      intro x _
      by_cases hx : k x = s
      · have : ¬ (s + 1 ≤ k x ∧ k x < s + 1 + n) := by omega
        simp [hx]
      · by_cases hr : s + 1 ≤ k x ∧ k x < s + 1 + n
        · have : s ≤ k x ∧ k x < s + (n + 1) := by omega
          simp [hx, hr, this]
        · have : ¬ (s ≤ k x ∧ k x < s + (n + 1)) := by omega
          simp [hx, hr, this]
    rw [e1, e2]
    exact List.filter_append_perm _ _

/-- The chains of a table reached from `symbol_init capacity` by a run of
`symbol_add` calls: the bucket `j` holds the symbols of the insertions with
`symbol_hash(name) % capacity = j`, the last insertion first. -/
theorem symbol_adds_chains (capacity : Int) (hcap : 0 < capacity)
    (calls : List (List Nat × Int)) (rs : List Int) (t : sym_table)
    (h : symbol_adds (symbol_init capacity) calls = some (rs, t)) (j : Nat)
    (hj : j < capacity.toNat) :
    ∃ chain, t.hash_table[j]? = some chain ∧
      chain.map (fun tmp => tmp.symbol) =
        ((added calls rs).reverse.filter
            (fun p => decide (symbol_hash p.1 % capacity = (j : Int)))).map
          (fun p => ({ name := strdup p.1, addr := p.2 } : symbol_t)) := by
  have inv0 := table_inv_init hcap
  have hj0 : (symbol_init capacity).hash_table[j]? = some [] := by
    simp only [symbol_init, List.getElem?_replicate]
    rw [if_pos hj]
  have := symbol_adds_hash_table inv0 h j [] hj0
  refine ⟨_, this, ?_⟩
  simp only [List.append_nil, List.map_map]
  rfl

/-- The sequence `iterate_order` is a permutation of the symbols of the
insertion history. -/
theorem iterate_order_perm (capacity : Int) (hcap : 0 < capacity)
    (inserted : List (List Nat × Int)) :
    List.Perm (iterate_order capacity inserted)
      (inserted.map (fun p => ({ name := strdup p.1, addr := p.2 } : symbol_t))) := by
  unfold iterate_order
  have hk : ∀ (i : Nat),
      inserted.reverse.filter (fun p => decide (symbol_hash p.1 % capacity = (i : Int))) =
        inserted.reverse.filter
          (fun p => decide ((symbol_hash p.1 % capacity).toNat = i)) := by
    intro i
    apply List.filter_congr
    intro p _
    have h0 : 0 ≤ symbol_hash p.1 % capacity := Int.emod_nonneg _ (ne_of_gt hcap)
    have : symbol_hash p.1 % capacity = (i : Int) ↔
        (symbol_hash p.1 % capacity).toNat = i := by omega
    simp only [this]
  simp only [hk]
  rw [← List.map_flatMap, List.range_eq_range']
  refine List.Perm.map _ ?_
  refine (flatMap_filter_perm _ _ _ 0).trans ?_
  have hall : inserted.reverse.filter
      (fun p => decide (0 ≤ (symbol_hash p.1 % capacity).toNat ∧
        (symbol_hash p.1 % capacity).toNat < 0 + capacity.toNat)) =
      inserted.reverse := by
    rw [List.filter_eq_self]
    intro p _
    have h0 : 0 ≤ symbol_hash p.1 % capacity := Int.emod_nonneg _ (ne_of_gt hcap)
    have h1 : symbol_hash p.1 % capacity < capacity := Int.emod_lt_of_pos _ hcap
    simp only [decide_eq_true_eq]
    omega
  rw [hall]
  exact List.reverse_perm _

/-- C11: on a table reached from `symbol_init capacity`, `0 < capacity`, by
`symbol_add` calls, `symbol_iterate` returns and calls the callback on the
symbols of `iterate_order`, in that order: the buckets by ascending index
`symbol_hash(name) mod capacity` and, within one bucket, the most recently
inserted symbol first, a function of the capacity and the insertion history;
this sequence is a permutation of the symbols of the calls that returned 1,
each of them once and nothing else. -/
theorem symbol_iterate_order (capacity : Int) (hcap : 0 < capacity)
    (calls : List (List Nat × Int)) (rs : List Int) (t : sym_table)
    (h : symbol_adds (symbol_init capacity) calls = some (rs, t)) :
    (∀ (δ : Type) (fnc : symbol_t → δ → δ) (data : δ),
      symbol_iterate t fnc data =
        some ((iterate_order capacity (added calls rs)).foldl (fun d sym => fnc sym d) data)) ∧
    List.Perm (iterate_order capacity (added calls rs))
      ((added calls rs).map (fun p => { name := strdup p.1, addr := p.2 })) := by
  have f := symbol_adds_spec (table_inv_init hcap) h
  have hc : t.capacity = capacity := f.cap
  constructor
  · intro δ fnc data
    unfold symbol_iterate iterate_order
    rw [hc, List.range_eq_range']
    apply symbol_iterate_loop_eq
    intro j _ hj
    exact symbol_adds_chains capacity hcap calls rs t h j (by omega)
  · exact iterate_order_perm capacity hcap _

/-- C11, on the table of capacity 2 after "a" at 1, "b" at 2, a rejected "A"
at 3, "c" at 4 and "d" at 5: the callback that appends the symbol it gets is
called on "c", "a" (bucket 0), then on "d", "b" (bucket 1). -/
theorem symbol_iterate_order_witness :
    (0 : Int) < 2 ∧
    added [([97], 1), ([98], 2), ([65], 3), ([99], 4), ([100], 5)] [1, 1, 0, 1, 1]
      = [([97], 1), ([98], 2), ([99], 4), ([100], 5)] ∧
    iterate_order 2 [([97], 1), ([98], 2), ([99], 4), ([100], 5)]
      = [{ name := [99], addr := 4 }, { name := [97], addr := 1 },
          { name := [100], addr := 5 }, { name := [98], addr := 2 }] ∧
    symbol_iterate
        (symbol_adds_table (symbol_init 2)
          [([97], 1), ([98], 2), ([65], 3), ([99], 4), ([100], 5)])
        (fun sym syms => syms ++ [sym]) []
      = some ((iterate_order 2
          (added [([97], 1), ([98], 2), ([65], 3), ([99], 4), ([100], 5)] [1, 1, 0, 1, 1])).foldl
            (fun d sym => d ++ [sym]) []) :=
  ⟨by decide, by decide, by decide,
    (symbol_iterate_order 2 (by decide)
      [([97], 1), ([98], 2), ([65], 3), ([99], 4), ([100], 5)] [1, 1, 0, 1, 1]
      (symbol_adds_table (symbol_init 2)
        [([97], 1), ([98], 2), ([65], 3), ([99], 4), ([100], 5)]) rfl).1
      (List symbol_t) (fun sym syms => syms ++ [sym]) []⟩


/-! The order of `compare_addresses` and the array of `symbol_order`. -/

theorem strcasecmp_total (a b : List Nat) : strcasecmp a b ≤ 0 ∨ strcasecmp b a ≤ 0 := by
  induction a generalizing b with
  | nil =>
    cases b with
    | nil => simp [strcasecmp]
    | cons c2 s2 => simp only [strcasecmp]; omega
  | cons c1 s1 ih =>
    cases b with
    | nil => simp only [strcasecmp]; omega
    | cons c2 s2 =>
      have z1 := @tolower_eq_zero c1
      have z2 := @tolower_eq_zero c2
      have := ih s2
      simp only [strcasecmp]
      split_ifs <;> omega

theorem strcasecmp_le_trans : ∀ (a b c : List Nat),
    strcasecmp a b ≤ 0 → strcasecmp b c ≤ 0 → strcasecmp a c ≤ 0 := by
  have t0 : tolower 0 = 0 := by decide
  intro a
  induction a with
  | nil =>
    intro b c h1 h2
    cases c with
    | nil => simp [strcasecmp]
    | cons z c' => simp only [strcasecmp]; omega
  | cons x a' ih =>
    intro b c h1 h2
    have zx := @tolower_eq_zero x
    cases b with
    | nil =>
      cases c with
      | nil => simpa [strcasecmp] using h1
      | cons z c' =>
        have zz := @tolower_eq_zero z
        simp only [strcasecmp, t0] at h1 h2 ⊢
        split_ifs <;> omega
    | cons y b' =>
      have zy := @tolower_eq_zero y
      cases c with
      | nil =>
        simp only [strcasecmp, t0] at h1 h2 ⊢
        split_ifs at h1 <;> omega
      | cons z c' =>
        have zz := @tolower_eq_zero z
        have := ih b' c'
        simp only [strcasecmp] at h1 h2 ⊢
        split_ifs at h1 h2 ⊢ <;> omega

theorem pairwise_orderedInsert_of {α : Type} (r : α → α → Prop) [DecidableRel r]
    (S : α → Prop) (tot : ∀ a b, S a → S b → r a b ∨ r b a)
    (trans : ∀ a b c, S a → S b → S c → r a b → r b c → r a c) (a : α) (ha : S a) :
    ∀ l : List α, (∀ b ∈ l, S b) → l.Pairwise r → (List.orderedInsert r a l).Pairwise r := by
  intro l
  induction l with
  | nil => intro _ _; simp [List.orderedInsert]
  | cons b l ih =>
    intro hS hp
    have hb : S b := hS b (List.mem_cons_self _ _)
    have hl : ∀ c ∈ l, S c := fun c hc => hS c (List.mem_cons_of_mem _ hc)
    obtain ⟨hbl, hpl⟩ := List.pairwise_cons.mp hp
    by_cases hab : r a b
    · rw [List.orderedInsert, if_pos hab]
      refine List.pairwise_cons.mpr ⟨?_, hp⟩
      intro c hc
      rcases List.mem_cons.mp hc with rfl | hc
      · exact hab
      · exact trans a b c ha hb (hl c hc) hab (hbl c hc)
    · rw [List.orderedInsert, if_neg hab]
      have hba : r b a := (tot a b ha hb).resolve_left hab
      refine List.pairwise_cons.mpr ⟨?_, ih hl hpl⟩
      intro c hc
      rcases (List.mem_orderedInsert r).mp hc with rfl | hc
      · exact hba
      · exact hbl c hc

/-- The insertion sort of a list whose elements are in a set on which the
relation is total and transitive is in the order of the relation. -/
theorem pairwise_insertionSort_of {α : Type} (r : α → α → Prop) [DecidableRel r]
    (S : α → Prop) (tot : ∀ a b, S a → S b → r a b ∨ r b a)
    (trans : ∀ a b c, S a → S b → S c → r a b → r b c → r a c) :
    ∀ l : List α, (∀ b ∈ l, S b) → (l.insertionSort r).Pairwise r := by
  intro l
  induction l with
  | nil => intro _; simp [List.insertionSort]
  | cons a l ih =>
    intro hS
    have hl : ∀ c ∈ l, S c := fun c hc => hS c (List.mem_cons_of_mem _ hc)
    rw [List.insertionSort]
    apply pairwise_orderedInsert_of r S tot trans a (hS a (List.mem_cons_self _ _))
    · intro b hb
      exact hl b ((List.perm_insertionSort r l).mem_iff.mp hb)
    · exact ih hl

/-- The value of `compare_addresses` on two symbols with addresses in
`[0, LC3_MEMORY_SIZE)`. -/
theorem compare_addresses_value (sym1 sym2 : symbol_t)
    (h1 : 0 ≤ sym1.addr ∧ sym1.addr < LC3_MEMORY_SIZE)
    (h2 : 0 ≤ sym2.addr ∧ sym2.addr < LC3_MEMORY_SIZE) :
    compare_addresses (some sym1) (some sym2) =
      some (if sym1.addr - sym2.addr = 0 then strcasecmp sym1.name sym2.name
        else sym1.addr - sym2.addr) := by
  have hM : LC3_MEMORY_SIZE = 65536 := by decide
  rw [hM] at h1 h2
  have hsub : int_sub sym1.addr sym2.addr = some (sym1.addr - sym2.addr) := by
    unfold int_sub
    rw [if_pos]
    constructor <;> norm_num <;> omega
  by_cases hd : sym1.addr - sym2.addr = 0
  · simp [compare_addresses, hsub, hd, compare_names]
  · simp [compare_addresses, hsub, hd]

/-- The libc function `qsort` with `compare_addresses` on an array of symbols
with addresses in `[0, LC3_MEMORY_SIZE)`: it returns a permutation of the
array on which `compare_addresses` is at most zero from every element to
every later one. -/
theorem qsort_compare_addresses (base : List (Option symbol_t))
    (hS : ∀ vp ∈ base, ∃ sym, vp = some sym ∧ 0 ≤ sym.addr ∧ sym.addr < LC3_MEMORY_SIZE) :
    ∃ out, qsort base compare_addresses = some out ∧ out.Perm base ∧
      out.Pairwise (fun vp1 vp2 => ∃ d, compare_addresses vp1 vp2 = some d ∧ d ≤ 0) := by
  unfold qsort
  by_cases hlen : base.length ≤ 1
  · rw [if_pos hlen]
    refine ⟨base, rfl, List.Perm.refl _, ?_⟩
    match base, hlen with
    | [], _ => exact List.Pairwise.nil
    | [a], _ => exact List.pairwise_singleton _ _
    | _ :: _ :: _, h => simp at h
  · rw [if_neg hlen]
    have hall : base.all (fun a => base.all (fun b => (compare_addresses a b).isSome))
        = true := by
      rw [List.all_eq_true]
      intro a ha
      rw [List.all_eq_true]
      intro b hb
      obtain ⟨s1, rfl, r1⟩ := hS a ha
      obtain ⟨s2, rfl, r2⟩ := hS b hb
      rw [compare_addresses_value s1 s2 r1 r2]
      rfl
    rw [if_pos hall]
    refine ⟨_, rfl, List.perm_insertionSort _ _, ?_⟩
    have hp := pairwise_insertionSort_of
      (fun a b : Option symbol_t => (compare_addresses a b).getD 0 ≤ 0)
      (fun vp => ∃ sym, vp = some sym ∧ 0 ≤ sym.addr ∧ sym.addr < LC3_MEMORY_SIZE)
      (by
        rintro a b ⟨s1, rfl, r1⟩ ⟨s2, rfl, r2⟩
        beta_reduce
        rw [compare_addresses_value s1 s2 r1 r2, compare_addresses_value s2 s1 r2 r1]
        simp only [Option.getD_some]
        have := strcasecmp_total s1.name s2.name
        split_ifs <;> omega)
      (by
        rintro a b c ⟨s1, rfl, r1⟩ ⟨s2, rfl, r2⟩ ⟨s3, rfl, r3⟩
        beta_reduce
        rw [compare_addresses_value s1 s2 r1 r2, compare_addresses_value s2 s3 r2 r3,
          compare_addresses_value s1 s3 r1 r3]
        simp only [Option.getD_some]
        have := strcasecmp_le_trans s1.name s2.name s3.name
        split_ifs <;> omega)
      base hS
    refine hp.imp_of_mem ?_
    intro a b ha hb hab
    obtain ⟨s1, rfl, r1⟩ := hS a ((List.perm_insertionSort _ _).mem_iff.mp ha)
    obtain ⟨s2, rfl, r2⟩ := hS b ((List.perm_insertionSort _ _).mem_iff.mp hb)
    rw [compare_addresses_value s1 s2 r1 r2] at hab ⊢
    exact ⟨_, rfl, hab⟩

theorem added_length (calls : List (List Nat × Int)) :
    ∀ rs : List Int, rs.length = calls.length → (added calls rs).length = rs.count 1 := by
  induction calls with
  | nil =>
    intro rs h
    cases rs with
    | nil => rfl
    | cons r rs => simp at h
  | cons c calls ih =>
    intro rs h
    obtain ⟨name, addr⟩ := c
    cases rs with
    | nil => simp at h
    | cons r rs =>
      have hl : rs.length = calls.length := by simpa using h
      have := ih rs hl
      by_cases hr : r = 1
      · subst hr
        rw [added_cons_one]
        simp [this]
      · have e : added ((name, addr) :: calls) (r :: rs) = added calls rs := by
          simp [added, List.filter_cons, hr]
        rw [e, this, List.count_cons_of_ne (Ne.symm hr)]

/-- Every insertion of a run that returns has its address in
`[0, LC3_MEMORY_SIZE)`. -/
theorem added_in_range {t : sym_table} (inv : table_inv t)
    {calls : List (List Nat × Int)} {rs : List Int} {t' : sym_table}
    (h : symbol_adds t calls = some (rs, t')) :
    ∀ p ∈ added calls rs, 0 ≤ p.2 ∧ p.2 < LC3_MEMORY_SIZE := by
  induction calls generalizing t rs with
  | nil =>
    simp only [symbol_adds, Option.some.injEq, Prod.mk.injEq] at h
    obtain ⟨h1, -⟩ := h
    subst h1
    simp [added]
  | cons c calls ih =>
    obtain ⟨name, addr⟩ := c
    obtain ⟨r, t1, rs1, ha, hs, rfl⟩ := symbol_adds_cons_some h
    rcases symbol_add_of_some inv ha with ⟨hr, ht, -⟩ | ⟨hr, inv1, -, -, hrange, -⟩
    · subst hr; subst ht
      rw [added_cons_zero]
      exact ih inv hs
    · subst hr
      rw [added_cons_one]
      intro p hp
      rcases List.mem_cons.mp hp with rfl | hp
      · exact hrange
      · exact ih inv1 hs p hp

/-- The loop of `symbol_order` over buckets whose chains are known: the
symbols of the chains, bucket after bucket, each chain from its head. -/
theorem symbol_order_loop_eq (ht : List (List node_t)) (g : Nat → List symbol_t) (n : Nat) :
    ∀ (i : Nat),
      (∀ j, i ≤ j → j < i + n → ∃ chain, ht[j]? = some chain ∧
        chain.map (fun tmp => tmp.symbol) = g j) →
      symbol_order_loop i n ht = some ((List.range' i n).flatMap g) := by
  induction n with
  | zero => intro i _; rfl
  | succ n ih =>
    intro i hg
    obtain ⟨chain, hc, hm⟩ := hg i (le_refl i) (by omega)
    simp only [symbol_order_loop, hc, List.range'_succ, List.flatMap_cons]
    rw [ih (i + 1) (fun j h1 h2 => hg j (by omega) (by omega)), hm]

/-- The array of `symbol_order` on a table reached from `symbol_init capacity`
by a run of `symbol_add` calls, for the criteria `HASH` and `ADDR`: the
symbols in the order of `symbol_iterate`, sorted by `qsort` with
`compare_addresses`. -/
theorem symbol_order_srtSymb_of_adds (capacity : Int) (hcap : 0 < capacity)
    (calls : List (List Nat × Int)) (rs : List Int) (t : sym_table)
    (h : symbol_adds (symbol_init capacity) calls = some (rs, t))
    (order : order_t) (ho : order = order_t.HASH ∨ order = order_t.ADDR) :
    symbol_order_srtSymb t order =
      qsort ((iterate_order capacity (added calls rs)).map some) compare_addresses := by
  have f := symbol_adds_spec (table_inv_init hcap) h
  have hc : t.capacity = capacity := f.cap
  have hloop : symbol_order_loop 0 t.capacity.toNat t.hash_table =
      some (iterate_order capacity (added calls rs)) := by
    unfold iterate_order
    rw [hc, List.range_eq_range']
    apply symbol_order_loop_eq
    intro j _ hj
    exact symbol_adds_chains capacity hcap calls rs t h j (by omega)
  have hlen : (iterate_order capacity (added calls rs)).length = rs.count 1 := by
    rw [(iterate_order_perm capacity hcap _).length_eq, List.length_map,
      added_length calls rs f.len]
  have hsize : t.size = ((iterate_order capacity (added calls rs)).length : Int) := by
    rw [f.size, hlen]
    simp [symbol_init]
  unfold symbol_order_srtSymb
  simp only [hloop]
  have hnot : ¬ t.size < ((iterate_order capacity (added calls rs)).length : Int) := by
    rw [hsize]; exact lt_irrefl _
  rw [if_neg hnot]
  have hrep : t.size.toNat - (iterate_order capacity (added calls rs)).length = 0 := by
    rw [hsize]; simp
  simp only [hrep, List.replicate_zero, List.append_nil]
  rcases ho with rfl | rfl <;> rfl

/-- C19: for two symbols with addresses in `[0, LC3_MEMORY_SIZE)` the
subtraction of `compare_addresses` does not overflow, and the value returned
is negative, zero or positive exactly when the pair of the address and the
name of the first symbol is less than, equal to or greater than that of the
second, addresses compared as numbers and, for one address, names compared by
`compare_names`, that is `strcasecmp`. `symbol_order` sorts with this
comparator for `HASH` as for `ADDR`: on a table reached from
`symbol_init capacity`, `0 < capacity`, by `symbol_add` calls, its array is,
for both criteria, `qsort` with `compare_addresses` of the symbols of the
table, a permutation of the inserted symbols on which `compare_addresses` is
at most zero from every element to every later one. -/
theorem compare_addresses_lex (sym1 sym2 : symbol_t)
    (h1 : 0 ≤ sym1.addr ∧ sym1.addr < LC3_MEMORY_SIZE)
    (h2 : 0 ≤ sym2.addr ∧ sym2.addr < LC3_MEMORY_SIZE) :
    int_sub sym1.addr sym2.addr = some (sym1.addr - sym2.addr) ∧
    compare_names (some sym1) (some sym2) = some (strcasecmp sym1.name sym2.name) ∧
    (∃ d, compare_addresses (some sym1) (some sym2) = some d ∧
      (d < 0 ↔ sym1.addr < sym2.addr ∨
        (sym1.addr = sym2.addr ∧ strcasecmp sym1.name sym2.name < 0)) ∧
      (d = 0 ↔ sym1.addr = sym2.addr ∧ strcasecmp sym1.name sym2.name = 0) ∧
      (0 < d ↔ sym2.addr < sym1.addr ∨
        (sym1.addr = sym2.addr ∧ 0 < strcasecmp sym1.name sym2.name))) ∧
    (∀ t, symbol_order_srtSymb t order_t.HASH = symbol_order_srtSymb t order_t.ADDR) ∧
    ∀ (capacity : Int) (calls : List (List Nat × Int)) (rs : List Int) (t : sym_table),
      0 < capacity → symbol_adds (symbol_init capacity) calls = some (rs, t) →
      ∀ order, order = order_t.HASH ∨ order = order_t.ADDR →
        symbol_order_srtSymb t order =
          qsort ((iterate_order capacity (added calls rs)).map some) compare_addresses ∧
        ∃ srtSymb, symbol_order_srtSymb t order = some srtSymb ∧
          srtSymb.Perm ((added calls rs).map
            (fun p => some ({ name := strdup p.1, addr := p.2 } : symbol_t))) ∧
          srtSymb.Pairwise
            (fun vp1 vp2 => ∃ d, compare_addresses vp1 vp2 = some d ∧ d ≤ 0) := by
  have hM : LC3_MEMORY_SIZE = 65536 := by decide
  have hsub : int_sub sym1.addr sym2.addr = some (sym1.addr - sym2.addr) := by
    rw [hM] at h1 h2
    unfold int_sub
    rw [if_pos]
    constructor <;> norm_num <;> omega
  refine ⟨hsub, rfl, ?_, fun t => rfl, ?_⟩
  · refine ⟨_, compare_addresses_value sym1 sym2 h1 h2, ?_, ?_, ?_⟩
    · split_ifs with hd
      · constructor
        · intro h; exact Or.inr ⟨by omega, h⟩
        · rintro (h | ⟨-, h⟩)
          · omega
          · exact h
      · constructor
        · intro h; exact Or.inl (by omega)
        · rintro (h | ⟨h, -⟩) <;> omega
    · split_ifs with hd
      · constructor
        · intro h; exact ⟨by omega, h⟩
        · rintro ⟨-, h⟩; exact h
      · constructor
        · intro h; exact absurd h hd
        · rintro ⟨h, -⟩; omega
    · split_ifs with hd
      · constructor
        · intro h; exact Or.inr ⟨by omega, h⟩
        · rintro (h | ⟨-, h⟩)
          · omega
          · exact h
      · constructor
        · intro h; exact Or.inl (by omega)
        · rintro (h | ⟨h, -⟩) <;> omega
  · intro capacity calls rs t hcap h order ho
    have heq := symbol_order_srtSymb_of_adds capacity hcap calls rs t h order ho
    refine ⟨heq, ?_⟩
    have hperm := iterate_order_perm capacity hcap (added calls rs)
    have hr := added_in_range (table_inv_init hcap) h
    obtain ⟨out, hq, hp, hs⟩ := qsort_compare_addresses
      ((iterate_order capacity (added calls rs)).map some) (by
        intro vp hvp
        obtain ⟨sym, hsym, rfl⟩ := List.mem_map.mp hvp
        obtain ⟨p, hpm, rfl⟩ := List.mem_map.mp (hperm.mem_iff.mp hsym)
        exact ⟨_, rfl, hr p hpm⟩)
    refine ⟨out, heq.trans hq, ?_, hs⟩
    have := hp.trans (hperm.map some)
    simpa [List.map_map, Function.comp] using this

/-- C19, on "Gamma" at 20 and "Beta" at 20, on "alpha" at 10 and "Beta" at 20,
and on the table of capacity 4 with "Beta" at 20, "alpha" at 10 and "Gamma" at
20, whose array for `ADDR` is alpha, Beta, Gamma. -/
theorem compare_addresses_lex_witness :
    ((0 : Int) ≤ 20 ∧ (20 : Int) < LC3_MEMORY_SIZE) ∧
    ((0 : Int) ≤ 10 ∧ (10 : Int) < LC3_MEMORY_SIZE) ∧
    int_sub 10 20 = some (10 - 20) ∧
    (∃ d, compare_addresses (some { name := [71, 97, 109, 109, 97], addr := 20 })
        (some { name := [66, 101, 116, 97], addr := 20 }) = some d ∧
      (d < 0 ↔ (20 : Int) < 20 ∨
        ((20 : Int) = 20 ∧ strcasecmp [71, 97, 109, 109, 97] [66, 101, 116, 97] < 0)) ∧
      (d = 0 ↔ (20 : Int) = 20 ∧ strcasecmp [71, 97, 109, 109, 97] [66, 101, 116, 97] = 0) ∧
      (0 < d ↔ (20 : Int) < 20 ∨
        ((20 : Int) = 20 ∧ 0 < strcasecmp [71, 97, 109, 109, 97] [66, 101, 116, 97]))) ∧
    symbol_order_srtSymb
        (symbol_adds_table (symbol_init 4)
          [([66, 101, 116, 97], 20), ([97, 108, 112, 104, 97], 10), ([71, 97, 109, 109, 97], 20)])
        order_t.ADDR
      = some [some { name := [97, 108, 112, 104, 97], addr := 10 },
          some { name := [66, 101, 116, 97], addr := 20 },
          some { name := [71, 97, 109, 109, 97], addr := 20 }] ∧
    ∃ srtSymb,
      symbol_order_srtSymb
        (symbol_adds_table (symbol_init 4)
          [([66, 101, 116, 97], 20), ([97, 108, 112, 104, 97], 10), ([71, 97, 109, 109, 97], 20)])
        order_t.ADDR = some srtSymb ∧
      srtSymb.Perm
        ((added
            [([66, 101, 116, 97], 20), ([97, 108, 112, 104, 97], 10), ([71, 97, 109, 109, 97], 20)]
            [1, 1, 1]).map
          (fun p => some ({ name := strdup p.1, addr := p.2 } : symbol_t))) ∧
      srtSymb.Pairwise (fun vp1 vp2 => ∃ d, compare_addresses vp1 vp2 = some d ∧ d ≤ 0) :=
  ⟨by decide, by decide,
    (compare_addresses_lex { name := [97, 108, 112, 104, 97], addr := 10 }
      { name := [66, 101, 116, 97], addr := 20 } (by decide) (by decide)).1,
    (compare_addresses_lex { name := [71, 97, 109, 109, 97], addr := 20 }
      { name := [66, 101, 116, 97], addr := 20 } (by decide) (by decide)).2.2.1,
    by decide,
    ((compare_addresses_lex { name := [71, 97, 109, 109, 97], addr := 20 }
      { name := [66, 101, 116, 97], addr := 20 } (by decide) (by decide)).2.2.2.2
      4 [([66, 101, 116, 97], 20), ([97, 108, 112, 104, 97], 10), ([71, 97, 109, 109, 97], 20)]
      [1, 1, 1]
      (symbol_adds_table (symbol_init 4)
        [([66, 101, 116, 97], 20), ([97, 108, 112, 104, 97], 10), ([71, 97, 109, 109, 97], 20)])
      (by decide) rfl order_t.ADDR (Or.inr rfl)).2⟩

end SymbolTable
